import Mathlib

/-!
# Huffman coding with optional Hamming(7,4) protection: `src/main.cpp`

A shallow embedding of the codec in `src/main.cpp` and proofs about it.

Modelling conventions.

* A `char` read from a file is a byte, `Byte := Fin 256`.  Where the source
  compares two `char`s (`compare`) the comparison is the signed one of the
  x86-64 ABI (`charVal`).
* A `std::string` holding a bit string (characters `'0'` / `'1'`) is a
  `List Bool`, `'1'` being `true`.
* `HuffmanNode*` is the type `HuffmanNode`: either `null` or a node with its
  four fields.  Dereferencing `null` is undefined in C++; the decode walk
  reports it as `none`.
* `int` counters (`freq`, `originalBits`, `encodedBits`) are natural numbers:
  the inputs considered are shorter than `2^31` bits, so no counter overflows.
* `std::unordered_map` is an association list holding the entries in iteration
  order.  C++ leaves that order open: `countFreq` lists the keys by first
  occurrence, and the statements about the tree and the code table hold for
  an arbitrary list of entries.
* `std::priority_queue` is the binary heap of GNU libstdc++ (`std::push_heap`,
  `std::pop_heap`) over a `std::vector`, here a `List`.
* The textual container (header lines, frequency lines) is outside the model:
  `decompress` receives the frequency table, the two bit counts and the payload
  as values.
-/

namespace HuffmanHamming

/-! ## Data model -/

/-- A byte value, the content of a C++ `char`. -/
abbrev Byte := Fin 256

/-- The value of a `char` after integral promotion (signed `char`). -/
def charVal (c : Byte) : Int :=
  if c.val < 128 then (c.val : Int) else (c.val : Int) - 256

/-- A `HuffmanNode*`: `null`, or a node with fields `ch`, `freq`, `left`, `right`. -/
inductive HuffmanNode where
  | null : HuffmanNode
  | mk (ch : Byte) (freq : Nat) (left right : HuffmanNode) : HuffmanNode
  deriving DecidableEq, Repr

/-- The constructor `HuffmanNode(c, f)`: both children are `nullptr`. -/
def HuffmanNode.new (c : Byte) (f : Nat) : HuffmanNode :=
  HuffmanNode.mk c f HuffmanNode.null HuffmanNode.null

/-- Pointer test `p == nullptr`. -/
def HuffmanNode.isNull : HuffmanNode → Bool
  | HuffmanNode.null => true
  | HuffmanNode.mk _ _ _ _ => false

/-- Field access `p->ch` (the value read through `nullptr` is immaterial). -/
def HuffmanNode.ch : HuffmanNode → Byte
  | HuffmanNode.null => 0
  | HuffmanNode.mk c _ _ _ => c

/-- Field access `p->freq`. -/
def HuffmanNode.freq : HuffmanNode → Nat
  | HuffmanNode.null => 0
  | HuffmanNode.mk _ f _ _ => f

/-- Field access `p->left`. -/
def HuffmanNode.left : HuffmanNode → HuffmanNode
  | HuffmanNode.null => HuffmanNode.null
  | HuffmanNode.mk _ _ l _ => l

/-- Field access `p->right`. -/
def HuffmanNode.right : HuffmanNode → HuffmanNode
  | HuffmanNode.null => HuffmanNode.null
  | HuffmanNode.mk _ _ _ r => r

/-- The functor `compare`: `true` when `left` has lower priority than `right`. -/
def compare (left right : HuffmanNode) : Bool :=
  if left.freq = right.freq then
    let isLeftLeaf := left.left.isNull && left.right.isNull
    let isRightLeaf := right.left.isNull && right.right.isNull
    if isLeftLeaf && isRightLeaf then decide (charVal left.ch > charVal right.ch)
    else if isLeftLeaf then false
    else if isRightLeaf then true
    else decide (charVal left.left.ch > charVal right.left.ch)
  else decide (left.freq > right.freq)

/-! ## Hamming(7,4) -/

/-- Source `hammingEncodeBlock`: 4 data bits to the block `p1 p2 d1 p3 d2 d3 d4`. -/
def hammingEncodeBlock (block : List Bool) : List Bool :=
  let d1 := block.getD 0 false
  let d2 := block.getD 1 false
  let d3 := block.getD 2 false
  let d4 := block.getD 3 false
  let p1 := xor (xor d1 d2) d4
  let p2 := xor (xor d1 d3) d4
  let p3 := xor (xor d2 d3) d4
  [p1, p2, d1, p3, d2, d3, d4]

/-- Source `hammingDecodeBlock`: syndrome, correction of the indicated bit, data bits. -/
def hammingDecodeBlock (block : List Bool) : List Bool :=
  let p1 := block.getD 0 false
  let p2 := block.getD 1 false
  let d1 := block.getD 2 false
  let p3 := block.getD 3 false
  let d2 := block.getD 4 false
  let d3 := block.getD 5 false
  let d4 := block.getD 6 false
  let s1 := (xor (xor (xor p1 d1) d2) d4).toNat
  let s2 := (xor (xor (xor p2 d1) d3) d4).toNat
  let s3 := (xor (xor (xor p3 d2) d3) d4).toNat
  let errorPos := s1 * 1 + s2 * 2 + s3 * 4
  let d1 := if errorPos = 3 then !d1 else d1
  let d2 := if errorPos = 5 then !d2 else d2
  let d3 := if errorPos = 6 then !d3 else d3
  let d4 := if errorPos = 7 then !d4 else d4
  [d1, d2, d3, d4]

/-- The loop of `hammingEncode`: every 4-bit chunk of the padded string is encoded. -/
def hammingEncodeLoop : List Bool → List Bool
  | d1 :: d2 :: d3 :: d4 :: rest =>
      hammingEncodeBlock [d1, d2, d3, d4] ++ hammingEncodeLoop rest
  | _ => []

/-- Source `hammingEncode`: returns the encoded string and the value stored in
`originalBits`. -/
def hammingEncode (data : List Bool) : List Bool × Nat :=
  let originalBits := data.length
  let padded_len := ((data.length + 3) / 4) * 4
  let padded := data ++ List.replicate (padded_len - data.length) false
  (hammingEncodeLoop padded, originalBits)

/-- The loop of `hammingDecode`: every complete 7-bit chunk is decoded, an
incomplete one at the end is skipped (`break`). -/
def hammingDecodeLoop : List Bool → List Bool
  | b0 :: b1 :: b2 :: b3 :: b4 :: b5 :: b6 :: rest =>
      hammingDecodeBlock [b0, b1, b2, b3, b4, b5, b6] ++ hammingDecodeLoop rest
  | _ => []

/-- Source `hammingDecode`. -/
def hammingDecode (encoded : List Bool) (originalBits : Nat) : List Bool :=
  (hammingDecodeLoop encoded).take originalBits

/-- The string `e` with the bit at 1-based position `k` inverted. -/
def flipBit (e : List Bool) (k : Nat) : List Bool :=
  e.set (k - 1) (!(e.getD (k - 1) false))

/-- Number of positions of the 7-bit block number `j` at which `e` and `e2` differ. -/
def blockErrors (e e2 : List Bool) (j : Nat) : Nat :=
  ((List.range 7).filter
    (fun i => e.getD (7 * j + i) false != e2.getD (7 * j + i) false)).length

/-- The string `e2` is `e` with at most one inverted bit in every 7-bit block. -/
def AtMostOneFlipPerBlock (e e2 : List Bool) : Prop :=
  e2.length = e.length ∧ ∀ j, blockErrors e e2 j ≤ 1

/-! ## Bit packing -/

/-- A `std::bitset<8>`: eight bits, index `i` being bit `i` (bit 0 least significant). -/
abbrev Bitset8 := List Bool

/-- The value of `bitset.reset()` and of a default-constructed bitset. -/
def Bitset8.zero : Bitset8 := List.replicate 8 false

/-- The method `to_ulong()`. -/
def Bitset8.toUlong (b : Bitset8) : Nat :=
  b.foldr (fun bit acc => bit.toNat + 2 * acc) 0

/-- The constructor `bitset<8>(byte)`: the low eight bits of the value. -/
def Bitset8.ofByte (c : Byte) : Bitset8 :=
  (List.range 8).map (fun i => c.val.testBit i)

/-- The method `to_string()`: most significant bit first. -/
def Bitset8.toBitString (b : Bitset8) : List Bool := b.reverse

/-- The conversion `static_cast<char>(byte.to_ulong())`. -/
def Bitset8.toChar (b : Bitset8) : Byte := Fin.ofNat (Bitset8.toUlong b)

/-- The state of the packing loop of `compress`. -/
structure PackState where
  byte : Bitset8
  bitCount : Nat
  out : List Byte
  deriving DecidableEq, Repr

/-- One iteration of the packing loop. -/
def packStep (st : PackState) (bit : Bool) : PackState :=
  let byte := st.byte.set (7 - st.bitCount) bit
  let bitCount := st.bitCount + 1
  if bitCount = 8 then
    { byte := Bitset8.zero, bitCount := 0, out := st.out ++ [Bitset8.toChar byte] }
  else
    { byte := byte, bitCount := bitCount, out := st.out }

/-- The packing part of `compress` (lines 185-198): the bytes written after the header. -/
def packBits (finalData : List Bool) : List Byte :=
  let st := finalData.foldl packStep { byte := Bitset8.zero, bitCount := 0, out := [] }
  if st.bitCount > 0 then st.out ++ [Bitset8.toChar st.byte] else st.out

/-- The unpacking part of `decompress` (lines 241-246). -/
def unpackBits (payload : List Byte) (encodedBits : Nat) : List Bool :=
  (payload.flatMap (fun c => Bitset8.toBitString (Bitset8.ofByte c))).take encodedBits

/-! ## `std::priority_queue<HuffmanNode*, vector<HuffmanNode*>, compare>` -/

/-- Element access `first[i]` in the underlying vector. -/
def at_ (c : List HuffmanNode) (i : Nat) : HuffmanNode := c.getD i HuffmanNode.null

/-- The libstdc++ helper `std::__push_heap(first, holeIndex, topIndex, value, comp)`:
parents of lower priority than `value` move down into the hole.  The first
argument bounds the number of iterations (`holeIndex` decreases each time). -/
def pushHeapLoop : Nat → List HuffmanNode → Nat → Nat → HuffmanNode → List HuffmanNode
  | 0, a, holeIndex, _, value => a.set holeIndex value
  | fuel + 1, a, holeIndex, topIndex, value =>
      let parent := (holeIndex - 1) / 2
      if holeIndex > topIndex ∧ compare (at_ a parent) value = true then
        pushHeapLoop fuel (a.set holeIndex (at_ a parent)) parent topIndex value
      else a.set holeIndex value

/-- The call `std::__push_heap(first, holeIndex, topIndex, value, comp)`. -/
def pushHeap (a : List HuffmanNode) (holeIndex topIndex : Nat) (value : HuffmanNode) :
    List HuffmanNode :=
  pushHeapLoop (holeIndex + 1) a holeIndex topIndex value

/-- The `while` loop of libstdc++ `std::__adjust_heap`: the hole moves down to the
child of higher priority (the right one on a tie).  Returns the vector, the
hole and `secondChild`. -/
def adjustHeapLoop : Nat → List HuffmanNode → Nat → Nat → Nat → List HuffmanNode × Nat × Nat
  | 0, a, holeIndex, secondChild, _ => (a, holeIndex, secondChild)
  | fuel + 1, a, holeIndex, secondChild, len =>
      if secondChild < (len - 1) / 2 then
        let secondChild := 2 * (secondChild + 1)
        let secondChild :=
          if compare (at_ a secondChild) (at_ a (secondChild - 1)) = true then secondChild - 1
          else secondChild
        adjustHeapLoop fuel (a.set holeIndex (at_ a secondChild)) secondChild secondChild len
      else (a, holeIndex, secondChild)

/-- The libstdc++ helper `std::__adjust_heap(first, holeIndex, len, value, comp)`. -/
def adjustHeap (a : List HuffmanNode) (holeIndex len : Nat) (value : HuffmanNode) :
    List HuffmanNode :=
  let topIndex := holeIndex
  let r := adjustHeapLoop len a holeIndex holeIndex len
  let a := r.1
  let holeIndex := r.2.1
  let secondChild := r.2.2
  if len % 2 = 0 ∧ secondChild = (len - 2) / 2 then
    let secondChild := 2 * (secondChild + 1)
    pushHeap (a.set holeIndex (at_ a (secondChild - 1))) (secondChild - 1) topIndex value
  else pushHeap a holeIndex topIndex value

/-- The method `pq.push(x)`: `c.push_back(x); std::push_heap(c.begin(), c.end(), comp)`. -/
def pqPush (c : List HuffmanNode) (x : HuffmanNode) : List HuffmanNode :=
  let c := c ++ [x]
  pushHeap c (c.length - 1) 0 (at_ c (c.length - 1))

/-- The method `pq.top()`: `c.front()`. -/
def pqTop (c : List HuffmanNode) : HuffmanNode := at_ c 0

/-- The method `pq.pop()`: `std::pop_heap(c.begin(), c.end(), comp); c.pop_back()`. -/
def pqPop (c : List HuffmanNode) : List HuffmanNode :=
  if c.length > 1 then
    let last := c.length - 1
    let value := at_ c last
    let c := c.set last (at_ c 0)
    (adjustHeap c 0 last value).dropLast
  else c.dropLast

/-! ## Huffman tree and code table -/

/-- An `unordered_map<char, int>`: its entries in iteration order. -/
abbrev FreqMap := List (Byte × Nat)

/-- An `unordered_map<char, string>`: its entries in iteration order. -/
abbrev CodeMap := List (Byte × List Bool)

/-- The statement `freqMap[ch]++`. -/
def mapIncr : FreqMap → Byte → FreqMap
  | [], ch => [(ch, 1)]
  | (k, n) :: rest, ch => if k = ch then (k, n + 1) :: rest else (k, n) :: mapIncr rest ch

/-- The statement `huffCodes[ch] = str`. -/
def mapAssign : CodeMap → Byte → List Bool → CodeMap
  | [], ch, str => [(ch, str)]
  | (k, s) :: rest, ch, str =>
      if k = ch then (k, str) :: rest else (k, s) :: mapAssign rest ch str

/-- The first reading loop of `compress`: `while (in.get(ch)) freqMap[ch]++`. -/
def countFreq (input : List Byte) : FreqMap := input.foldl mapIncr []

/-- The loop `for (entry : freqMap) pq.push(new HuffmanNode(entry.first, entry.second))`. -/
def pushLeaves (freqMap : FreqMap) : List HuffmanNode :=
  freqMap.foldl (fun pq entry => pqPush pq (HuffmanNode.new entry.1 entry.2)) []

/-- The loop `while (pq.size() > 1)` of `compress` and `decompress`; the first
argument bounds the number of iterations (the size decreases by one each time). -/
def mergeLoop : Nat → List HuffmanNode → List HuffmanNode
  | 0, pq => pq
  | fuel + 1, pq =>
      if pq.length > 1 then
        let left := pqTop pq
        let pq := pqPop pq
        let right := pqTop pq
        let pq := pqPop pq
        let newNode := HuffmanNode.mk 0 (left.freq + right.freq) left right
        mergeLoop fuel (pqPush pq newNode)
      else pq

/-- The queue after the tree construction (lines 141-154 and 253-265). -/
def buildQueue (freqMap : FreqMap) : List HuffmanNode :=
  let pq := pushLeaves freqMap
  mergeLoop pq.length pq

/-- The root used by both sides: `pq.empty() ? nullptr : pq.top()`. -/
def buildTree (freqMap : FreqMap) : HuffmanNode :=
  let pq := buildQueue freqMap
  if pq.isEmpty then HuffmanNode.null else pqTop pq

/-- Source `buildCodes(root, str, huffCodes)`. -/
def buildCodes : HuffmanNode → List Bool → CodeMap → CodeMap
  | HuffmanNode.null, _, huffCodes => huffCodes
  | HuffmanNode.mk ch _ left right, str, huffCodes =>
      let huffCodes := if ch ≠ 0 then mapAssign huffCodes ch str else huffCodes
      let huffCodes := buildCodes left (str ++ [false]) huffCodes
      buildCodes right (str ++ [true]) huffCodes

/-- The code table of a frequency table (lines 141-158 of `compress`). -/
def codeTable (freqMap : FreqMap) : CodeMap :=
  let pq := buildQueue freqMap
  if !pq.isEmpty then buildCodes (pqTop pq) [] [] else []

/-- The second reading loop of `compress`:
`while (in.get(ch)) compressedData += huffCodes[ch]`; `operator[]` inserts an
empty string for a key the map lacks. -/
def encodeLoop : CodeMap → List Byte → List Bool
  | _, [] => []
  | huffCodes, ch :: rest =>
      match huffCodes.lookup ch with
      | some s => s ++ encodeLoop huffCodes rest
      | none => encodeLoop (mapAssign huffCodes ch []) rest

/-- What `compress` writes: the header tag, the frequency table, the two bit
counts and the packed payload. -/
structure Compressed where
  useHamming : Bool
  freqMap : FreqMap
  originalBits : Nat
  encodedBits : Nat
  payload : List Byte
  deriving DecidableEq, Repr

/-- Source `compress`, on the bytes of the input file. -/
def compress (input : List Byte) (useHamming : Bool) : Compressed :=
  let freqMap := countFreq input
  let huffCodes := codeTable freqMap
  let compressedData := encodeLoop huffCodes input
  let originalBits := compressedData.length
  let final := if useHamming then hammingEncode compressedData
               else (compressedData, originalBits)
  { useHamming := useHamming
    freqMap := freqMap
    originalBits := final.2
    encodedBits := final.1.length
    payload := packBits final.1 }

/-- The decoding loop of `decompress` (lines 270-281).  `curr` is the cursor,
the result the bytes written to the output; `none` when the walk dereferences
`nullptr`. -/
def decodeWalk (root : HuffmanNode) : HuffmanNode → List Bool → Option (List Byte)
  | _, [] => some []
  | HuffmanNode.null, _ :: _ => none
  | HuffmanNode.mk _ _ left right, bit :: rest =>
      match (if bit = false then left else right) with
      | HuffmanNode.null => none
      | HuffmanNode.mk ch f l r =>
          if l.isNull && r.isNull then (decodeWalk root root rest).map (fun out => ch :: out)
          else decodeWalk root (HuffmanNode.mk ch f l r) rest

/-- Source `decompress`, on the values read from the container. -/
def decompress (useHamming : Bool) (freqMap : FreqMap) (originalBits encodedBits : Nat)
    (payload : List Byte) : Option (List Byte) :=
  let encodedData := unpackBits payload encodedBits
  let compressedData :=
    if useHamming then hammingDecode encodedData originalBits
    else encodedData.take originalBits
  let root := buildTree freqMap
  decodeWalk root root compressedData

/-- Decompression of what `compress` produced, the table entries being pushed in
the order in which `compress` pushed them. -/
def roundTrip (input : List Byte) (useHamming : Bool) : Option (List Byte) :=
  let c := compress input useHamming
  decompress c.useHamming c.freqMap c.originalBits c.encodedBits c.payload

/-! ## Notions used to state the properties -/

/-- The shape of every node the program creates: a leaf made by
`HuffmanNode(c, f)`, or a merge node with symbol `'\0'` and two such subtrees. -/
inductive Good : HuffmanNode → Prop where
  | leaf (c : Byte) (f : Nat) : Good (HuffmanNode.new c f)
  | node (f : Nat) (l r : HuffmanNode) : Good l → Good r → Good (HuffmanNode.mk 0 f l r)

/-- The (symbol, frequency) pairs at the leaves of a tree, left to right; a leaf
is a node without children. -/
def leaves : HuffmanNode → List (Byte × Nat)
  | HuffmanNode.null => []
  | HuffmanNode.mk c f l r =>
      if l.isNull && r.isNull then [(c, f)] else leaves l ++ leaves r

/-- The node reached from `t` along a path: `false` ('0') is a step to the left
child, `true` ('1') a step to the right child. -/
def descend : HuffmanNode → List Bool → HuffmanNode
  | t, [] => t
  | HuffmanNode.null, _ :: _ => HuffmanNode.null
  | HuffmanNode.mk _ _ l r, b :: p => descend (if b = false then l else r) p

/-- A frequency table with ten symbols, 'a' to 'j': 'a' and 'f' occur three
times, the others once (for instance the file "aaabcdefffghij"). -/
def tieTable : FreqMap :=
  [(97, 3), (98, 1), (99, 1), (100, 1), (101, 1), (102, 3), (103, 1), (104, 1), (105, 1),
    (106, 1)]

/-- The bytes of the file "aaabcdefffghij". -/
def tieInput : List Byte :=
  [97, 97, 97, 98, 99, 100, 101, 102, 102, 102, 103, 104, 105, 106]

/-- Invariant of the packing loop after the bits `p` have been consumed. -/
def PackInv (st : PackState) (p : List Bool) : Prop :=
  st.byte.length = 8 ∧ st.bitCount = p.length % 8 ∧ st.out.length = p.length / 8 ∧
    st.out.flatMap (fun c => Bitset8.toBitString (Bitset8.ofByte c))
      ++ (Bitset8.toBitString st.byte).take st.bitCount = p

/-- The symbol of the leaf reached from a node by always descending to the left
child. -/
def leftmostSymbol : HuffmanNode → Byte
  | HuffmanNode.null => 0
  | HuffmanNode.mk c _ HuffmanNode.null _ => c
  | HuffmanNode.mk _ _ (HuffmanNode.mk c2 f2 l2 r2) _ => leftmostSymbol (HuffmanNode.mk c2 f2 l2 r2)

/-- The bit string with the bits at the 1-based positions `i` and `j` inverted. -/
def flipTwoBits (e : List Bool) (i j : Nat) : List Bool := flipBit (flipBit e i) j

/-- Second invariant of the packing loop: the bits of the current byte that
have not been assigned yet are zero. -/
def PackPad (st : PackState) : Prop :=
  (Bitset8.toBitString st.byte).drop st.bitCount = List.replicate (8 - st.bitCount) false

/-- A frequency table with six symbols, 'a' to 'f': 'a' and 'f' occur twice, the
others once (for instance the file "aabcdeff"). -/
def sixTable : FreqMap := [(97, 2), (98, 1), (99, 1), (100, 1), (101, 1), (102, 2)]

/-- The subtree `(a f)` that the build of `sixTable` creates. -/
def nodeAF : HuffmanNode :=
  HuffmanNode.mk 0 4 (HuffmanNode.new 97 2) (HuffmanNode.new 102 2)

/-- The subtree `((b c) (d e))` that the builds of `sixTable` and `tieTable` create. -/
def nodeBCDE : HuffmanNode :=
  HuffmanNode.mk 0 4
    (HuffmanNode.mk 0 2 (HuffmanNode.new 98 1) (HuffmanNode.new 99 1))
    (HuffmanNode.mk 0 2 (HuffmanNode.new 100 1) (HuffmanNode.new 101 1))

/-- The subtree `((g h) (i j))` that the build of `tieTable` creates. -/
def nodeGHIJ : HuffmanNode :=
  HuffmanNode.mk 0 4
    (HuffmanNode.mk 0 2 (HuffmanNode.new 103 1) (HuffmanNode.new 104 1))
    (HuffmanNode.mk 0 2 (HuffmanNode.new 105 1) (HuffmanNode.new 106 1))

/-! ## Notions used to state optimality -/

/-- The first `n` slots of the vector form a binary heap by frequency: no node
has a smaller frequency than its parent at index `(i - 1) / 2`. -/
def HeapOrdered (a : List HuffmanNode) (n : Nat) : Prop :=
  ∀ i, 0 < i → i < n → (at_ a ((i - 1) / 2)).freq ≤ (at_ a i).freq

/-- State of the sift-up loop: the heap property holds for the first `n` slots
except at the hole, the value fits below the hole, and the parent of the hole
fits above the children of the hole. -/
def HoleInv (a : List HuffmanNode) (n hole : Nat) (v : HuffmanNode) : Prop :=
  hole < n ∧ n ≤ a.length ∧
  (∀ i, 0 < i → i < n → i ≠ hole → (i - 1) / 2 ≠ hole →
    (at_ a ((i - 1) / 2)).freq ≤ (at_ a i).freq) ∧
  (∀ i, 0 < i → i < n → (i - 1) / 2 = hole → v.freq ≤ (at_ a i).freq) ∧
  (∀ i, 0 < i → i < n → (i - 1) / 2 = hole → 0 < hole →
    (at_ a ((hole - 1) / 2)).freq ≤ (at_ a i).freq)

/-- State of the sift-down loop: the heap property holds for the first `n` slots
except at the hole, and the parent of the hole fits above the children of the
hole. -/
def DownInv (a : List HuffmanNode) (n hole : Nat) : Prop :=
  hole < n ∧ n ≤ a.length ∧
  (∀ i, 0 < i → i < n → i ≠ hole → (i - 1) / 2 ≠ hole →
    (at_ a ((i - 1) / 2)).freq ≤ (at_ a i).freq) ∧
  (∀ i, 0 < i → i < n → (i - 1) / 2 = hole → 0 < hole →
    (at_ a ((hole - 1) / 2)).freq ≤ (at_ a i).freq)

/-- The weighted path length of a list of (weight, depth) pairs. -/
def pathCost (L : List (Nat × Nat)) : Nat := (L.map (fun p => p.1 * p.2)).sum

/-- The Kraft sum of a list of depths, scaled by `2 ^ D`. -/
def kraftSum (D : Nat) (ds : List Nat) : Nat := (ds.map (fun d => 2 ^ (D - d))).sum

/-- The Kraft inequality for depths bounded by `D`: the depths fit the leaves of
a binary tree. -/
def Kraft (D : Nat) (ds : List Nat) : Prop := (∀ d ∈ ds, d ≤ D) ∧ kraftSum D ds ≤ 2 ^ D

/-- The (frequency, depth) pairs of the leaves of a tree whose root is at depth
`d`, left to right. -/
def depthList : HuffmanNode → Nat → List (Nat × Nat)
  | HuffmanNode.null, _ => []
  | HuffmanNode.mk _ f l r, d =>
      if l.isNull && r.isNull then [(f, d)] else depthList l (d + 1) ++ depthList r (d + 1)

/-- The weighted path length of a tree: the sum over its leaves of frequency
times depth. -/
def weightedPathLength (t : HuffmanNode) : Nat := pathCost (depthList t 0)

/-- The sum of the frequencies at the leaves of a tree. -/
def weight (t : HuffmanNode) : Nat := ((leaves t).map Prod.snd).sum

/-- The number of nodes on the longest path from a node downwards. -/
def height : HuffmanNode → Nat
  | HuffmanNode.null => 0
  | HuffmanNode.mk _ _ l r => 1 + max (height l) (height r)

/-! # Proofs -/

theorem decodeBlock_of_errors_le_one (d1 d2 d3 d4 b0 b1 b2 b3 b4 b5 b6 : Bool)
    (h : blockErrors (hammingEncodeBlock [d1, d2, d3, d4]) [b0, b1, b2, b3, b4, b5, b6] 0 ≤ 1) :
    hammingDecodeBlock [b0, b1, b2, b3, b4, b5, b6] = [d1, d2, d3, d4] := by
  revert d1 d2 d3 d4 b0 b1 b2 b3 b4 b5 b6
  decide

/-! ## Hamming(7,4): streams -/

theorem blockErrors_head (x0 x1 x2 x3 x4 x5 x6 y0 y1 y2 y3 y4 y5 y6 : Bool) (e e2 : List Bool) :
    blockErrors (x0 :: x1 :: x2 :: x3 :: x4 :: x5 :: x6 :: e)
      (y0 :: y1 :: y2 :: y3 :: y4 :: y5 :: y6 :: e2) 0
      = blockErrors [x0, x1, x2, x3, x4, x5, x6] [y0, y1, y2, y3, y4, y5, y6] 0 := rfl

theorem blockErrors_tail (x0 x1 x2 x3 x4 x5 x6 y0 y1 y2 y3 y4 y5 y6 : Bool) (e e2 : List Bool)
    (j : Nat) :
    blockErrors (x0 :: x1 :: x2 :: x3 :: x4 :: x5 :: x6 :: e)
      (y0 :: y1 :: y2 :: y3 :: y4 :: y5 :: y6 :: e2) (j + 1) = blockErrors e e2 j := by
  unfold blockErrors
  have h : ∀ i, 7 * (j + 1) + i = (7 * j + i) + 7 := fun i => by ring
  simp only [h, List.getD_cons_succ]

theorem hammingEncodeLoop_length (padded : List Bool) :
    (hammingEncodeLoop padded).length = 7 * (padded.length / 4) := by
  induction padded using hammingEncodeLoop.induct with
  | case1 d1 d2 d3 d4 rest ih =>
    simp only [hammingEncodeLoop, List.length_append, ih, List.length_cons]
    simp [hammingEncodeBlock]
    omega
  | case2 l h =>
    have hl : l.length < 4 := by
      rcases l with _ | ⟨a, _ | ⟨b, _ | ⟨c, _ | ⟨d, t⟩⟩⟩⟩ <;> simp
      exact (h a b c d t rfl).elim
    rw [hammingEncodeLoop]
    · simp; omega
    · exact h

theorem hammingDecodeLoop_of_flips (padded : List Bool) :
    ∀ e2 : List Bool, 4 ∣ padded.length →
      AtMostOneFlipPerBlock (hammingEncodeLoop padded) e2 → hammingDecodeLoop e2 = padded := by
  induction padded using hammingEncodeLoop.induct with
  | case1 d1 d2 d3 d4 rest ih =>
    intro e2 hdiv ⟨hlen, herr⟩
    have hdiv2 : 4 ∣ rest.length := by
      simp only [List.length_cons] at hdiv
      omega
    have henc : hammingEncodeLoop (d1 :: d2 :: d3 :: d4 :: rest)
        = xor (xor d1 d2) d4 :: xor (xor d1 d3) d4 :: d1 :: xor (xor d2 d3) d4 :: d2 :: d3 :: d4
            :: hammingEncodeLoop rest := by
      simp [hammingEncodeLoop, hammingEncodeBlock]
    rw [henc] at hlen herr
    rcases e2 with _ | ⟨b0, _ | ⟨b1, _ | ⟨b2, _ | ⟨b3, _ | ⟨b4, _ | ⟨b5, _ | ⟨b6, r2⟩⟩⟩⟩⟩⟩⟩ <;>
      simp only [List.length_cons, List.length_nil] at hlen <;> try omega
    have h0 := herr 0
    rw [blockErrors_head] at h0
    have hblock := decodeBlock_of_errors_le_one d1 d2 d3 d4 b0 b1 b2 b3 b4 b5 b6 h0
    have htail : AtMostOneFlipPerBlock (hammingEncodeLoop rest) r2 := by
      refine ⟨by omega, fun j => ?_⟩
      have := herr (j + 1)
      rwa [blockErrors_tail] at this
    rw [hammingDecodeLoop, hblock, ih r2 hdiv2 htail]
    rfl
  | case2 l h =>
    intro e2 hdiv ⟨hlen, _⟩
    have hl : l.length < 4 := by
      rcases l with _ | ⟨a, _ | ⟨b, _ | ⟨c, _ | ⟨d, t⟩⟩⟩⟩ <;> simp
      exact (h a b c d t rfl).elim
    have hl0 : l = [] := by
      apply List.eq_nil_of_length_eq_zero
      obtain ⟨k, hk⟩ := hdiv
      omega
    subst hl0
    simp [hammingEncodeLoop] at hlen
    subst hlen
    rfl

theorem hammingEncode_padded_length (data : List Bool) :
    4 ∣ (data ++ List.replicate ((data.length + 3) / 4 * 4 - data.length) false).length := by
  simp only [List.length_append, List.length_replicate]
  exact ⟨(data.length + 3) / 4, by omega⟩

theorem hammingDecode_of_flips (s e2 : List Bool)
    (h : AtMostOneFlipPerBlock (hammingEncode s).1 e2) :
    hammingDecode e2 (hammingEncode s).2 = s := by
  unfold hammingEncode at h ⊢
  simp only at h ⊢
  unfold hammingDecode
  rw [hammingDecodeLoop_of_flips _ e2 (hammingEncode_padded_length s) h]
  simp

theorem atMostOneFlipPerBlock_refl (e : List Bool) : AtMostOneFlipPerBlock e e := by
  refine ⟨rfl, fun j => ?_⟩
  simp [blockErrors]

theorem hammingDecode_hammingEncode (s : List Bool) :
    hammingDecode (hammingEncode s).1 (hammingEncode s).2 = s :=
  hammingDecode_of_flips s _ (atMostOneFlipPerBlock_refl _)

/-! ## Bit packing -/

theorem ofByte_toChar (a0 a1 a2 a3 a4 a5 a6 a7 : Bool) :
    Bitset8.ofByte (Bitset8.toChar [a0, a1, a2, a3, a4, a5, a6, a7])
      = [a0, a1, a2, a3, a4, a5, a6, a7] := by
  revert a0 a1 a2 a3 a4 a5 a6 a7
  decide

theorem packInv_init : PackInv { byte := Bitset8.zero, bitCount := 0, out := [] } [] := by
  simp [PackInv, Bitset8.zero]

theorem packInv_step (st : PackState) (p : List Bool) (bit : Bool) (h : PackInv st p) :
    PackInv (packStep st bit) (p ++ [bit]) := by
  obtain ⟨byte, c, out⟩ := st
  obtain ⟨hlen, hc, hout, hp⟩ := h
  simp only at hlen hc hout hp
  rcases byte with _ | ⟨a0, _ | ⟨a1, _ | ⟨a2, _ | ⟨a3, _ | ⟨a4, _ | ⟨a5, _ | ⟨a6, _ | ⟨a7, _ | ⟨a8, t⟩⟩⟩⟩⟩⟩⟩⟩⟩ <;>
    simp only [List.length_cons, List.length_nil] at hlen <;> try omega
  have hc8 : c < 8 := by omega
  have hcases : c = 0 ∨ c = 1 ∨ c = 2 ∨ c = 3 ∨ c = 4 ∨ c = 5 ∨ c = 6 ∨ c = 7 := by omega
  subst hp
  rcases hcases with h | h | h | h | h | h | h | h <;> subst h <;>
    simp [PackInv, packStep, Bitset8.toBitString, ofByte_toChar, Bitset8.zero] <;>
    simp [Bitset8.toBitString] at hc hout ⊢ <;> omega

theorem packInv_foldl (l : List Bool) : ∀ (st : PackState) (p : List Bool), PackInv st p →
    PackInv (l.foldl packStep st) (p ++ l) := by
  induction l with
  | nil => intro st p h; simpa using h
  | cons b t ih =>
    intro st p h
    have := ih (packStep st b) (p ++ [b]) (packInv_step st p b h)
    simpa using this

theorem unpack_pack (s : List Bool) :
    unpackBits (packBits s) s.length = s ∧ (packBits s).length = (s.length + 7) / 8 := by
  have h := packInv_foldl s _ [] packInv_init
  simp only [List.nil_append] at h
  unfold packBits unpackBits
  generalize s.foldl packStep { byte := Bitset8.zero, bitCount := 0, out := [] } = st at h
  obtain ⟨byte, c, out⟩ := st
  obtain ⟨hlen, hc, hout, hp⟩ := h
  simp only at hlen hc hout hp ⊢
  rcases byte with _ | ⟨a0, _ | ⟨a1, _ | ⟨a2, _ | ⟨a3, _ | ⟨a4, _ | ⟨a5, _ | ⟨a6, _ | ⟨a7, _ | ⟨a8, t⟩⟩⟩⟩⟩⟩⟩⟩⟩ <;>
    simp only [List.length_cons, List.length_nil] at hlen <;> try omega
  split
  · next hpos =>
    refine ⟨?_, by simp; omega⟩
    rw [List.flatMap_append]
    simp only [List.flatMap_cons, List.flatMap_nil, List.append_nil, ofByte_toChar]
    have hsplit : Bitset8.toBitString [a0, a1, a2, a3, a4, a5, a6, a7]
        = (Bitset8.toBitString [a0, a1, a2, a3, a4, a5, a6, a7]).take c
          ++ (Bitset8.toBitString [a0, a1, a2, a3, a4, a5, a6, a7]).drop c :=
      (List.take_append_drop _ _).symm
    rw [hsplit, ← List.append_assoc, hp]
    simp
  · next hzero =>
    have hc0 : c = 0 := by omega
    subst hc0
    simp only [List.take_zero, List.append_nil] at hp
    refine ⟨?_, by omega⟩
    rw [hp]
    simp

/-! ## The priority queue keeps its elements -/

theorem at_eq_getElem (a : List HuffmanNode) (i : Nat) (h : i < a.length) : at_ a i = a[i] := by
  simp [at_, List.getD_eq_getElem, h]

theorem at_set_ne (a : List HuffmanNode) (i k : Nat) (x : HuffmanNode) (h : i ≠ k) :
    at_ (a.set i x) k = at_ a k := by
  simp [at_, List.getD_eq_getElem?_getD, List.getElem?_set_ne h]

theorem set_set_perm (a : List HuffmanNode) (i j : Nat) (v : HuffmanNode)
    (hi : i < a.length) (hj : j < a.length) :
    List.Perm ((a.set i (at_ a j)).set j v) (a.set i v) := by
  by_cases hij : i = j
  · subst hij
    simp
  · rw [List.perm_iff_count]
    intro b
    have hj2 : j < (a.set i (at_ a j)).length := by simpa using hj
    rw [List.count_set _ _ _ _ hj2, List.count_set _ _ _ _ hi, List.count_set _ _ _ _ hi]
    have h1 : (a.set i (at_ a j))[j] = a[j] := by
      rw [List.getElem_set_ne hij]
    rw [h1, at_eq_getElem a j hj]
    have h2 : (if a[i] == b then 1 else 0) ≤ a.count b := by
      split
      · next h =>
        have : a[i] = b := by simpa using h
        exact List.count_pos_iff.mpr (this ▸ List.getElem_mem hi)
      · omega
    omega

theorem pushHeapLoop_perm (fuel : Nat) : ∀ (a : List HuffmanNode) (hole top : Nat)
    (v : HuffmanNode), hole < a.length →
    List.Perm (pushHeapLoop fuel a hole top v) (a.set hole v) := by
  induction fuel with
  | zero => intro a hole top v _; exact List.Perm.refl _
  | succ n ih =>
    intro a hole top v h
    unfold pushHeapLoop
    simp only
    split
    · have hp : (hole - 1) / 2 < a.length := by omega
      have hp2 : (hole - 1) / 2 < (a.set hole (at_ a ((hole - 1) / 2))).length := by simpa using hp
      exact (ih _ _ top v hp2).trans (set_set_perm a hole _ v h hp)
    · exact List.Perm.refl _

theorem pushHeapLoop_at_gt (fuel : Nat) : ∀ (a : List HuffmanNode) (hole top : Nat)
    (v : HuffmanNode) (k : Nat), hole < k →
    at_ (pushHeapLoop fuel a hole top v) k = at_ a k := by
  induction fuel with
  | zero => intro a hole top v k h; exact at_set_ne a hole k v (by omega)
  | succ n ih =>
    intro a hole top v k h
    unfold pushHeapLoop
    simp only
    split
    · rw [ih _ _ top v k (by omega), at_set_ne a hole k _ (by omega)]
    · exact at_set_ne a hole k v (by omega)

theorem adjustHeapLoop_spec (fuel : Nat) : ∀ (a : List HuffmanNode) (hole sc len : Nat)
    (v : HuffmanNode), hole < len → len ≤ a.length →
    (adjustHeapLoop fuel a hole sc len).2.1 < len ∧
    (adjustHeapLoop fuel a hole sc len).1.length = a.length ∧
    List.Perm ((adjustHeapLoop fuel a hole sc len).1.set (adjustHeapLoop fuel a hole sc len).2.1 v)
      (a.set hole v) ∧
    ∀ k, len ≤ k → at_ (adjustHeapLoop fuel a hole sc len).1 k = at_ a k := by
  induction fuel with
  | zero => intro a hole sc len v h hl; exact ⟨h, rfl, List.Perm.refl _, fun _ _ => rfl⟩
  | succ n ih =>
    intro a hole sc len v h hl
    unfold adjustHeapLoop
    split
    · next hlt =>
      simp only
      generalize hs : (if compare (at_ a (2 * (sc + 1))) (at_ a (2 * (sc + 1) - 1)) = true
        then 2 * (sc + 1) - 1 else 2 * (sc + 1)) = s
      have hslen : s < len := by
        rw [← hs]; split <;> omega
      have hl2 : len ≤ (a.set hole (at_ a s)).length := by simpa using hl
      obtain ⟨r1, r2, r3, r4⟩ := ih (a.set hole (at_ a s)) s s len v hslen hl2
      refine ⟨r1, by simpa using r2, ?_, ?_⟩
      · exact r3.trans (set_set_perm a hole s v (by omega) (by omega))
      · intro k hk
        rw [r4 k hk, at_set_ne a hole k _ (by omega)]
    · exact ⟨h, rfl, List.Perm.refl _, fun _ _ => rfl⟩

theorem adjustHeap_spec (a : List HuffmanNode) (hole len : Nat) (v : HuffmanNode)
    (h : hole < len) (hl : len ≤ a.length) :
    List.Perm (adjustHeap a hole len v) (a.set hole v) ∧
    ∀ k, len ≤ k → at_ (adjustHeap a hole len v) k = at_ a k := by
  obtain ⟨r1, r2, r3, r4⟩ := adjustHeapLoop_spec len a hole hole len v h hl
  unfold adjustHeap
  simp only
  generalize adjustHeapLoop len a hole hole len = r at r1 r2 r3 r4
  obtain ⟨a2, hole2, sc2⟩ := r
  simp only at r1 r2 r3 r4 ⊢
  split
  · next hc =>
    have hidx : 2 * (sc2 + 1) - 1 < a2.length := by omega
    have hidx2 : 2 * (sc2 + 1) - 1 < (a2.set hole2 (at_ a2 (2 * (sc2 + 1) - 1))).length := by
      simpa using hidx
    constructor
    · exact ((pushHeapLoop_perm _ _ _ hole v hidx2).trans
        (set_set_perm a2 hole2 _ v (by omega) hidx)).trans r3
    · intro k hk
      unfold pushHeap
      rw [pushHeapLoop_at_gt _ _ _ hole v k (by omega), at_set_ne a2 hole2 k _ (by omega), r4 k hk]
  · constructor
    · exact (pushHeapLoop_perm _ _ _ hole v (by omega)).trans r3
    · intro k hk
      unfold pushHeap
      rw [pushHeapLoop_at_gt _ _ _ hole v k (by omega), r4 k hk]

theorem pqPush_perm (c : List HuffmanNode) (x : HuffmanNode) :
    List.Perm (pqPush c x) (x :: c) := by
  unfold pqPush pushHeap
  simp only
  have hlen : (c ++ [x]).length - 1 = c.length := by simp
  have hat : at_ (c ++ [x]) c.length = x := by simp [at_]
  rw [hlen, hat]
  refine (pushHeapLoop_perm _ _ _ 0 x (by simp)).trans ?_
  have : (c ++ [x]).set c.length x = c ++ [x] := by simp
  rw [this]
  exact List.perm_append_singleton x c

theorem set_at_self (a : List HuffmanNode) (i : Nat) (h : i < a.length) :
    a.set i (at_ a i) = a := by
  apply List.ext_getElem (by simp)
  intro n h1 h2
  by_cases hn : i = n
  · subst hn; simp [at_eq_getElem a i h]
  · simp [List.getElem_set_ne hn]

theorem pqPop_perm (c : List HuffmanNode) (hne : c ≠ []) :
    List.Perm c (pqTop c :: pqPop c) := by
  unfold pqPop pqTop
  split
  · next hlen =>
    simp only
    have h0 : 0 < c.length := by omega
    have hlast : c.length - 1 < c.length := by omega
    have hl1 : c.length - 1 ≤ (c.set (c.length - 1) (at_ c 0)).length := by simp
    obtain ⟨hperm, hfix⟩ := adjustHeap_spec (c.set (c.length - 1) (at_ c 0)) 0 (c.length - 1)
      (at_ c (c.length - 1)) (by omega) hl1
    generalize adjustHeap (c.set (c.length - 1) (at_ c 0)) 0 (c.length - 1)
      (at_ c (c.length - 1)) = r at hperm hfix
    have hswap := set_set_perm c (c.length - 1) 0 (at_ c (c.length - 1)) hlast h0
    have hself : c.set (c.length - 1) (at_ c (c.length - 1)) = c := by
      exact set_at_self c _ hlast
    rw [hself] at hswap
    have hrc : List.Perm r c := hperm.trans hswap
    have hrlen : r.length = c.length := hrc.length_eq
    have hrne : r ≠ [] := by
      intro h; rw [h] at hrlen; simp at hrlen; omega
    have hrlast : r.getLast hrne = at_ c 0 := by
      have h1 := hfix (c.length - 1) (Nat.le_refl _)
      have h2 : at_ (c.set (c.length - 1) (at_ c 0)) (c.length - 1) = at_ c 0 := by
        rw [at_eq_getElem _ _ (by simpa using hlast)]; simp
      rw [h2] at h1
      rw [← h1, List.getLast_eq_getElem, at_eq_getElem r _ (by omega)]
      simp [hrlen]
    have hr : r = r.dropLast ++ [at_ c 0] := by
      rw [← hrlast]; exact (List.dropLast_append_getLast hrne).symm
    have : List.Perm r (at_ c 0 :: r.dropLast) := by
      conv_lhs => rw [hr]
      exact List.perm_append_singleton _ _
    exact hrc.symm.trans this
  · next hlen =>
    match c, hne with
    | [x], _ => simp [at_]
    | x :: y :: t, _ => simp at hlen

theorem pqPop_length (c : List HuffmanNode) (hne : c ≠ []) :
    (pqPop c).length + 1 = c.length := by
  have := (pqPop_perm c hne).length_eq
  simp at this
  omega

theorem pqPush_length (c : List HuffmanNode) (x : HuffmanNode) :
    (pqPush c x).length = c.length + 1 := by
  simpa using (pqPush_perm c x).length_eq

/-! ## The iteration bounds are sufficient -/

/-- More iterations than `holeIndex + 1` do not change `std::__push_heap`: the
bound used by `pushHeap` never cuts the loop short. -/
theorem pushHeapLoop_fuel (fuel : Nat) : ∀ (a : List HuffmanNode) (hole top : Nat)
    (v : HuffmanNode), hole < fuel →
    pushHeapLoop (fuel + 1) a hole top v = pushHeapLoop fuel a hole top v := by
  induction fuel with
  | zero => intro a hole top v h; omega
  | succ n ih =>
    intro a hole top v h
    rw [pushHeapLoop]
    conv_rhs => rw [pushHeapLoop]
    split
    · next hc => exact ih _ _ top v (by omega)
    · rfl

/-- More iterations than `len` do not change the loop of `std::__adjust_heap`. -/
theorem adjustHeapLoop_fuel (fuel : Nat) : ∀ (a : List HuffmanNode) (hole sc len : Nat),
    (len - 1) / 2 ≤ sc + fuel →
    adjustHeapLoop (fuel + 1) a hole sc len = adjustHeapLoop fuel a hole sc len := by
  induction fuel with
  | zero =>
    intro a hole sc len h
    rw [adjustHeapLoop]
    have : ¬ sc < (len - 1) / 2 := by omega
    simp [this, adjustHeapLoop, mergeLoop]
  | succ n ih =>
    intro a hole sc len h
    rw [adjustHeapLoop]
    conv_rhs => rw [adjustHeapLoop]
    split
    · simp only
      split
      · exact ih _ _ _ len (by omega)
      · exact ih _ _ _ len (by omega)
    · rfl

/-- More iterations than `pq.size()` do not change the merge loop. -/
theorem mergeLoop_fuel (fuel : Nat) : ∀ pq : List HuffmanNode, pq.length ≤ fuel + 1 →
    mergeLoop (fuel + 1) pq = mergeLoop fuel pq := by
  induction fuel with
  | zero =>
    intro pq h
    rw [mergeLoop]
    have : ¬ pq.length > 1 := by omega
    simp [this, adjustHeapLoop, mergeLoop]
  | succ n ih =>
    intro pq h
    rw [mergeLoop]
    conv_rhs => rw [mergeLoop]
    split
    · next hgt =>
      apply ih
      have hne : pq ≠ [] := by intro h; simp [h] at hgt
      have hl1 := pqPop_length pq hne
      have hne1 : pqPop pq ≠ [] := by intro h; simp [h] at hl1; omega
      have hl2 := pqPop_length (pqPop pq) hne1
      rw [pqPush_length]
      omega
    · rfl

/-! ## The forest in the queue -/

theorem Good.ne_null {t : HuffmanNode} (h : Good t) : t.isNull = false := by
  cases h <;> rfl

theorem leaves_new (c : Byte) (f : Nat) : leaves (HuffmanNode.new c f) = [(c, f)] := rfl

theorem leaves_node (ch : Byte) (f : Nat) (l r : HuffmanNode) (hl : l.isNull = false) :
    leaves (HuffmanNode.mk ch f l r) = leaves l ++ leaves r := by
  simp [leaves, hl]

theorem pushLeaves_foldl_perm (freqMap : FreqMap) : ∀ acc : List HuffmanNode,
    List.Perm (freqMap.foldl (fun pq entry => pqPush pq (HuffmanNode.new entry.1 entry.2)) acc)
      (acc ++ freqMap.map (fun entry => HuffmanNode.new entry.1 entry.2)) := by
  induction freqMap with
  | nil => intro acc; simp
  | cons e t ih =>
    intro acc
    simp only [List.foldl_cons, List.map_cons]
    refine (ih _).trans ?_
    have h1 := pqPush_perm acc (HuffmanNode.new e.1 e.2)
    refine (h1.append_right _).trans ?_
    simp only [List.cons_append]
    exact List.perm_middle.symm

theorem pushLeaves_perm (freqMap : FreqMap) :
    List.Perm (pushLeaves freqMap) (freqMap.map (fun entry => HuffmanNode.new entry.1 entry.2)) := by
  simpa [pushLeaves] using pushLeaves_foldl_perm freqMap []

theorem pushLeaves_good (freqMap : FreqMap) : ∀ n ∈ pushLeaves freqMap, Good n := by
  intro n hn
  have := (pushLeaves_perm freqMap).mem_iff.mp hn
  simp only [List.mem_map] at this
  obtain ⟨e, _, rfl⟩ := this
  exact Good.leaf _ _

theorem pushLeaves_leaves (freqMap : FreqMap) :
    List.Perm ((pushLeaves freqMap).flatMap leaves) freqMap := by
  refine ((pushLeaves_perm freqMap).flatMap_right leaves).trans ?_
  have : (freqMap.map (fun entry => HuffmanNode.new entry.1 entry.2)).flatMap leaves = freqMap := by
    induction freqMap with
    | nil => rfl
    | cons e t ih => simp [List.flatMap_cons, leaves_new] at ih ⊢; exact ih
  rw [this]

theorem pushLeaves_length (freqMap : FreqMap) : (pushLeaves freqMap).length = freqMap.length := by
  simpa using (pushLeaves_perm freqMap).length_eq

theorem mergeLoop_spec (fuel : Nat) : ∀ pq : List HuffmanNode, pq.length ≤ fuel + 1 →
    (∀ n ∈ pq, Good n) →
    (mergeLoop fuel pq).length ≤ 1 ∧ (pq ≠ [] → mergeLoop fuel pq ≠ []) ∧
    (∀ n ∈ mergeLoop fuel pq, Good n) ∧
    List.Perm ((mergeLoop fuel pq).flatMap leaves) (pq.flatMap leaves) := by
  induction fuel with
  | zero =>
    intro pq hlen hgood
    exact ⟨by simpa [mergeLoop] using hlen, fun h => h, hgood, List.Perm.refl _⟩
  | succ n ih =>
    intro pq hlen hgood
    unfold mergeLoop
    split
    · next hgt =>
      simp only
      have hne : pq ≠ [] := by intro h; simp [h] at hgt
      have hp1 := pqPop_perm pq hne
      have hl1 := pqPop_length pq hne
      have hne1 : pqPop pq ≠ [] := by intro h; simp [h] at hl1; omega
      have hp2 := pqPop_perm (pqPop pq) hne1
      have hl2 := pqPop_length (pqPop pq) hne1
      have hgl : Good (pqTop pq) := hgood _ (hp1.mem_iff.mpr (List.mem_cons_self _ _))
      have hg1 : ∀ m ∈ pqPop pq, Good m := fun m hm =>
        hgood _ (hp1.mem_iff.mpr (List.mem_cons_of_mem _ hm))
      have hgr : Good (pqTop (pqPop pq)) := hg1 _ (hp2.mem_iff.mpr (List.mem_cons_self _ _))
      have hg2 : ∀ m ∈ pqPop (pqPop pq), Good m := fun m hm =>
        hg1 _ (hp2.mem_iff.mpr (List.mem_cons_of_mem _ hm))
      generalize hnode : HuffmanNode.mk 0 ((pqTop pq).freq + (pqTop (pqPop pq)).freq) (pqTop pq)
        (pqTop (pqPop pq)) = node
      have hgn : Good node := by rw [← hnode]; exact Good.node _ _ _ hgl hgr
      have hp3 := pqPush_perm (pqPop (pqPop pq)) node
      have hl3 := pqPush_length (pqPop (pqPop pq)) node
      have hg3 : ∀ m ∈ pqPush (pqPop (pqPop pq)) node, Good m := by
        intro m hm
        rcases List.mem_cons.mp (hp3.mem_iff.mp hm) with h | h
        · rw [h]; exact hgn
        · exact hg2 m h
      obtain ⟨r1, r2, r3, r4⟩ := ih (pqPush (pqPop (pqPop pq)) node) (by omega) hg3
      refine ⟨r1, fun _ => r2 (by intro h; simp [h] at hl3), r3, r4.trans ?_⟩
      refine (hp3.flatMap_right leaves).trans ?_
      refine List.Perm.trans ?_ (hp1.flatMap_right leaves).symm
      simp only [List.flatMap_cons]
      rw [← hnode, leaves_node _ _ _ _ hgl.ne_null, List.append_assoc]
      refine List.Perm.append_left _ ?_
      have := (hp2.flatMap_right leaves).symm
      simpa only [List.flatMap_cons] using this
    · next hle =>
      exact ⟨by omega, fun h => h, hgood, List.Perm.refl _⟩

/-- The queue left by the construction: empty for an empty table, otherwise a
single well-shaped tree whose leaves are the entries of the table. -/
theorem buildQueue_spec (freqMap : FreqMap) :
    (freqMap = [] → buildQueue freqMap = []) ∧
    (freqMap ≠ [] → ∃ t, buildQueue freqMap = [t] ∧ Good t ∧ List.Perm (leaves t) freqMap) := by
  constructor
  · intro h; subst h; rfl
  · intro hne
    unfold buildQueue
    simp only
    obtain ⟨r1, r2, r3, r4⟩ := mergeLoop_spec (pushLeaves freqMap).length (pushLeaves freqMap)
      (by omega) (pushLeaves_good freqMap)
    have hpne : pushLeaves freqMap ≠ [] := by
      intro h
      have := pushLeaves_length freqMap
      rw [h] at this
      exact hne (List.eq_nil_of_length_eq_zero this.symm)
    have r2 := r2 hpne
    generalize mergeLoop (pushLeaves freqMap).length (pushLeaves freqMap) = q at r1 r2 r3 r4
    match q, r1, r2 with
    | [t], _, _ =>
      refine ⟨t, rfl, r3 t (List.mem_singleton_self t), ?_⟩
      have := r4.trans (pushLeaves_leaves freqMap)
      simpa using this

theorem buildTree_spec (freqMap : FreqMap) (hne : freqMap ≠ []) :
    Good (buildTree freqMap) ∧ List.Perm (leaves (buildTree freqMap)) freqMap ∧
    codeTable freqMap = buildCodes (buildTree freqMap) [] [] := by
  obtain ⟨t, ht, hg, hp⟩ := (buildQueue_spec freqMap).2 hne
  simp [buildTree, codeTable, ht, pqTop, at_, hg, hp]

/-! ## The code table -/

theorem lookup_mapAssign (m : CodeMap) (k a : Byte) (v : List Bool) :
    (mapAssign m k v).lookup a = if a = k then some v else m.lookup a := by
  induction m with
  | nil =>
    by_cases h : a = k
    · subst h; simp [mapAssign, List.lookup]
    · have hb : (a == k) = false := by simpa using h
      simp [mapAssign, List.lookup, hb, h]
  | cons e t ih =>
    obtain ⟨k2, s⟩ := e
    unfold mapAssign
    by_cases h2 : k2 = k
    · subst h2
      by_cases h : a = k2
      · subst h; simp [List.lookup]
      · have hb : (a == k2) = false := by simpa using h
        simp [List.lookup, hb, h]
    · by_cases h : a = k
      · subst h
        have h3 : (a == k2) = false := by simpa using fun h => h2 h.symm
        simp [h2, List.lookup, h3, ih]
      · simp only [h2, if_false, List.lookup, ih, h]

theorem descend_null (p : List Bool) : descend HuffmanNode.null p = HuffmanNode.null := by
  cases p <;> rfl

theorem descend_nil (t : HuffmanNode) : descend t [] = t := by
  cases t <;> rfl

theorem descend_cons (c : Byte) (f : Nat) (l r : HuffmanNode) (b : Bool) (p : List Bool) :
    descend (HuffmanNode.mk c f l r) (b :: p) = descend (if b = false then l else r) p := rfl

theorem descend_append (p : List Bool) : ∀ (t : HuffmanNode) (s : List Bool),
    descend t (p ++ s) = descend (descend t p) s := by
  induction p with
  | nil => intro t s; rw [descend_nil]; rfl
  | cons b p ih =>
    intro t s
    cases t with
    | null => simp [descend_null]
    | mk c f l r =>
      rw [List.cons_append, descend_cons, descend_cons]
      exact ih _ _

theorem descend_new (c : Byte) (f : Nat) (s : List Bool) (hs : s ≠ []) :
    descend (HuffmanNode.new c f) s = HuffmanNode.null := by
  cases s with
  | nil => exact (hs rfl).elim
  | cons b p => cases b <;> simp [HuffmanNode.new, descend, descend_null]

theorem buildCodes_new (c : Byte) (f : Nat) (str : List Bool) (m : CodeMap) :
    buildCodes (HuffmanNode.new c f) str m = if c ≠ 0 then mapAssign m c str else m := by
  simp [HuffmanNode.new, buildCodes]

theorem buildCodes_node (f : Nat) (l r : HuffmanNode) (str : List Bool) (m : CodeMap) :
    buildCodes (HuffmanNode.mk 0 f l r) str m
      = buildCodes r (str ++ [true]) (buildCodes l (str ++ [false]) m) := by
  simp [buildCodes]

/-- Every entry of the table written by `buildCodes` was there before or is the
path to a leaf carrying that symbol. -/
theorem buildCodes_sound {t : HuffmanNode} (ht : Good t) : ∀ (str : List Bool) (m : CodeMap)
    (a : Byte) (code : List Bool), (buildCodes t str m).lookup a = some code →
    m.lookup a = some code ∨ ∃ p f, code = str ++ p ∧ descend t p = HuffmanNode.new a f := by
  induction ht with
  | leaf c f =>
    intro str m a code h
    rw [buildCodes_new] at h
    split at h
    · rw [lookup_mapAssign] at h
      split at h
      · next hac =>
        right
        refine ⟨[], f, ?_, ?_⟩
        · simpa using (Option.some.inj h).symm
        · rw [hac]; rfl
      · exact Or.inl h
    · exact Or.inl h
  | node f l r _ _ ihl ihr =>
    intro str m a code h
    rw [buildCodes_node] at h
    rcases ihr _ _ a code h with h1 | ⟨p, f2, hc, hd⟩
    · rcases ihl _ _ a code h1 with h2 | ⟨p, f2, hc, hd⟩
      · exact Or.inl h2
      · exact Or.inr ⟨false :: p, f2, by simpa using hc, by simpa [descend] using hd⟩
    · exact Or.inr ⟨true :: p, f2, by simpa using hc, by simpa [descend] using hd⟩

/-- The function `buildCodes` leaves alone the symbols that are not at a leaf. -/
theorem buildCodes_unchanged {t : HuffmanNode} (ht : Good t) : ∀ (str : List Bool) (m : CodeMap)
    (a : Byte), (∀ f, (a, f) ∉ leaves t) → (buildCodes t str m).lookup a = m.lookup a := by
  induction ht with
  | leaf c f =>
    intro str m a h
    rw [buildCodes_new]
    split
    · rw [lookup_mapAssign]
      have : a ≠ c := by
        intro hac; subst hac
        exact h f (by simp [leaves_new])
      simp [this]
    · rfl
  | node f l r hl _ ihl ihr =>
    intro str m a h
    rw [buildCodes_node]
    rw [leaves_node _ _ _ _ hl.ne_null] at h
    rw [ihr _ _ a (fun f2 hf => h f2 (List.mem_append_right _ hf)),
      ihl _ _ a (fun f2 hf => h f2 (List.mem_append_left _ hf))]

/-- A symbol other than `'\0'` at a leaf receives the path to that leaf. -/
theorem buildCodes_complete {t : HuffmanNode} (ht : Good t) : ∀ (str : List Bool) (m : CodeMap)
    (c : Byte) (f : Nat), ((leaves t).map Prod.fst).Nodup → (c, f) ∈ leaves t → c ≠ 0 →
    ∃ p, descend t p = HuffmanNode.new c f ∧ (buildCodes t str m).lookup c = some (str ++ p) := by
  induction ht with
  | leaf c0 f0 =>
    intro str m c f _ hmem hc
    rw [leaves_new] at hmem
    have := List.mem_singleton.mp hmem
    obtain ⟨rfl, rfl⟩ := Prod.mk.inj this
    refine ⟨[], rfl, ?_⟩
    rw [buildCodes_new]
    simp [hc, lookup_mapAssign]
  | node f0 l r hl _ ihl ihr =>
    intro str m c f hnd hmem hc
    rw [leaves_node _ _ _ _ hl.ne_null] at hnd hmem
    rw [List.map_append] at hnd
    rw [buildCodes_node]
    rcases List.mem_append.mp hmem with h | h
    · obtain ⟨p, hp1, hp2⟩ := ihl (str ++ [false]) m c f (List.Nodup.of_append_left hnd) h hc
      refine ⟨false :: p, by simpa [descend] using hp1, ?_⟩
      have hnot : ∀ f2, (c, f2) ∉ leaves r := by
        intro f2 hf2
        have h1 : c ∈ (leaves l).map Prod.fst := List.mem_map.mpr ⟨(c, f), h, rfl⟩
        have h2 : c ∈ (leaves r).map Prod.fst := List.mem_map.mpr ⟨(c, f2), hf2, rfl⟩
        exact (List.nodup_append.mp hnd).2.2 h1 h2
      rw [buildCodes_unchanged ‹Good r› _ _ c hnot, hp2]
      simp
    · obtain ⟨p, hp1, hp2⟩ := ihr (str ++ [true]) (buildCodes l (str ++ [false]) m) c f
        (List.Nodup.of_append_right hnd) h hc
      exact ⟨true :: p, by simpa [descend] using hp1, by simpa using hp2⟩

theorem descend_leaf_mem {t : HuffmanNode} (ht : Good t) : ∀ (p : List Bool) (c : Byte) (f : Nat),
    descend t p = HuffmanNode.new c f → (c, f) ∈ leaves t := by
  induction ht with
  | leaf c0 f0 =>
    intro p c f h
    by_cases hp : p = []
    · subst hp
      rw [descend_nil] at h
      injection h with h1 h2
      rw [leaves_new, h1, h2]
      exact List.mem_singleton_self _
    · rw [descend_new c0 f0 p hp] at h
      simp [HuffmanNode.new] at h
  | node f0 l r hl hr ihl ihr =>
    intro p c f h
    rw [leaves_node _ _ _ _ hl.ne_null]
    cases p with
    | nil =>
      simp only [descend, HuffmanNode.new] at h
      have := hl.ne_null
      injection h with _ _ h3 _
      rw [h3] at this
      simp [HuffmanNode.isNull] at this
    | cons b p =>
      cases b
      · exact List.mem_append_left _ (ihl p c f (by simpa [descend] using h))
      · exact List.mem_append_right _ (ihr p c f (by simpa [descend] using h))

theorem codeTable_nil : codeTable [] = [] := rfl

theorem prefix_free_of_good {t : HuffmanNode} (ht : Good t) (a b : Byte) (ca cb : List Bool)
    (hab : a ≠ b) (ha : (buildCodes t [] []).lookup a = some ca)
    (hb : (buildCodes t [] []).lookup b = some cb) : ¬ ca <+: cb := by
  rintro ⟨s, hs⟩
  rcases buildCodes_sound ht [] [] a ca ha with h | ⟨p, f, hp, hd⟩
  · simp [List.lookup] at h
  rcases buildCodes_sound ht [] [] b cb hb with h | ⟨q, g, hq, hd2⟩
  · simp [List.lookup] at h
  simp only [List.nil_append] at hp hq
  subst hp hq
  rw [← hs, descend_append, hd] at hd2
  by_cases hs0 : s = []
  · subst hs0
    simp only [descend, HuffmanNode.new] at hd2
    injection hd2 with h1
    exact hab h1
  · rw [descend_new a f s hs0] at hd2
    simp [HuffmanNode.new] at hd2

/-! ## The decode walk -/

theorem decodeWalk_cons (root : HuffmanNode) (c : Byte) (f : Nat) (l r : HuffmanNode) (b : Bool)
    (rest : List Bool) :
    decodeWalk root (HuffmanNode.mk c f l r) (b :: rest) =
      match (if b = false then l else r) with
      | HuffmanNode.null => none
      | HuffmanNode.mk ch f2 l2 r2 =>
          if l2.isNull && r2.isNull then (decodeWalk root root rest).map (fun out => ch :: out)
          else decodeWalk root (HuffmanNode.mk ch f2 l2 r2) rest := by
  rw [decodeWalk]

theorem decodeWalk_step {next : HuffmanNode} (hn : Good next) (root : HuffmanNode) (c0 : Byte)
    (f0 : Nat) (l r : HuffmanNode) (b : Bool) (p rest : List Bool) (c : Byte) (f : Nat)
    (hnext : (if b = false then l else r) = next)
    (hd : descend next p = HuffmanNode.new c f)
    (ih : next.left.isNull = false →
      decodeWalk root next (p ++ rest) = (decodeWalk root root rest).map (fun out => c :: out)) :
    decodeWalk root (HuffmanNode.mk c0 f0 l r) (b :: (p ++ rest))
      = (decodeWalk root root rest).map (fun out => c :: out) := by
  rw [decodeWalk_cons, hnext]
  cases hn with
  | leaf c1 f1 =>
    by_cases hp : p = []
    · subst hp
      rw [descend_nil] at hd
      injection hd with h1
      subst h1
      simp [HuffmanNode.new, HuffmanNode.isNull]
    · rw [descend_new c1 f1 p hp] at hd
      simp [HuffmanNode.new] at hd
  | node f1 l1 r1 hl1 hr1 =>
    have hnl : l1.isNull = false := hl1.ne_null
    simp only [hnl, Bool.false_and]
    exact ih hnl

theorem decodeWalk_path (root : HuffmanNode) (c : Byte) (f : Nat) (rest : List Bool)
    (p : List Bool) : ∀ t : HuffmanNode, Good t → t.left.isNull = false →
    descend t p = HuffmanNode.new c f →
    decodeWalk root t (p ++ rest) = (decodeWalk root root rest).map (fun out => c :: out) := by
  induction p with
  | nil =>
    intro t _ hleft hd
    rw [descend_nil] at hd
    rw [hd] at hleft
    simp [HuffmanNode.new, HuffmanNode.left, HuffmanNode.isNull] at hleft
  | cons b p ih =>
    intro t ht hleft hd
    cases ht with
    | leaf c1 f1 => simp [HuffmanNode.new, HuffmanNode.left, HuffmanNode.isNull] at hleft
    | node f1 l r hl hr =>
      rw [descend_cons] at hd
      have hgn : Good (if b = false then l else r) := by cases b <;> simpa
      exact decodeWalk_step hgn root 0 f1 l r b p rest c f rfl hd (fun h => ih _ hgn h hd)

theorem encodeLoop_cons_some (codes : CodeMap) (c : Byte) (rest : List Byte) (s : List Bool)
    (h : codes.lookup c = some s) :
    encodeLoop codes (c :: rest) = s ++ encodeLoop codes rest := by
  rw [encodeLoop, h]

theorem decodeWalk_encodeLoop (root : HuffmanNode) (hg : Good root)
    (hroot : root.left.isNull = false) (codes : CodeMap) (input : List Byte)
    (h : ∀ c ∈ input, ∃ p f, codes.lookup c = some p ∧ descend root p = HuffmanNode.new c f) :
    decodeWalk root root (encodeLoop codes input) = some input := by
  induction input with
  | nil => cases root <;> rfl
  | cons c rest ih =>
    obtain ⟨p, f, hp, hd⟩ := h c (List.mem_cons_self _ _)
    rw [encodeLoop_cons_some codes c rest p hp,
      decodeWalk_path root c f _ p root hg hroot hd,
      ih (fun c2 hc2 => h c2 (List.mem_cons_of_mem _ hc2))]
    rfl

/-! ## The frequency table -/

theorem mapIncr_keys (m : FreqMap) (c : Byte) :
    (mapIncr m c).map Prod.fst
      = if c ∈ m.map Prod.fst then m.map Prod.fst else m.map Prod.fst ++ [c] := by
  induction m with
  | nil => simp [mapIncr]
  | cons e t ih =>
    obtain ⟨k, n⟩ := e
    unfold mapIncr
    by_cases hk : k = c
    · subst hk; simp
    · have hck : ¬ c = k := fun h => hk h.symm
      simp only [hk, if_false, List.map_cons, ih, List.mem_cons, hck, false_or]
      split <;> simp

theorem countFreq_keys_aux (input : List Byte) : ∀ acc : FreqMap, (acc.map Prod.fst).Nodup →
    ((input.foldl mapIncr acc).map Prod.fst).Nodup ∧
    ∀ c, c ∈ (input.foldl mapIncr acc).map Prod.fst ↔ c ∈ acc.map Prod.fst ∨ c ∈ input := by
  induction input with
  | nil => intro acc h; simpa using h
  | cons b t ih =>
    intro acc h
    have hnd : ((mapIncr acc b).map Prod.fst).Nodup := by
      rw [mapIncr_keys]
      split
      · exact h
      · next hb =>
        exact List.Nodup.append h (List.nodup_singleton b) (by simpa using hb)
    obtain ⟨r1, r2⟩ := ih (mapIncr acc b) hnd
    refine ⟨r1, fun c => ?_⟩
    rw [List.foldl_cons, r2 c, mapIncr_keys]
    split
    · next hb =>
      constructor
      · rintro (h1 | h1)
        · exact Or.inl h1
        · exact Or.inr (List.mem_cons_of_mem _ h1)
      · rintro (h1 | h1)
        · exact Or.inl h1
        · rcases List.mem_cons.mp h1 with h2 | h2
          · exact Or.inl (h2 ▸ hb)
          · exact Or.inr h2
    · simp only [List.mem_append, List.mem_singleton, List.mem_cons]
      tauto

theorem countFreq_keys (input : List Byte) :
    ((countFreq input).map Prod.fst).Nodup ∧
    ∀ c, c ∈ (countFreq input).map Prod.fst ↔ c ∈ input := by
  have := countFreq_keys_aux input [] (by simp)
  simpa [countFreq] using this

/-! ## Round trip -/

theorem good_not_leaf {t : HuffmanNode} (hg : Good t) (a b : Byte) (fa fb : Nat)
    (ha : (a, fa) ∈ leaves t) (hb : (b, fb) ∈ leaves t) (hab : a ≠ b) :
    t.left.isNull = false := by
  cases hg with
  | leaf c f =>
    rw [leaves_new] at ha hb
    simp at ha hb
    exact (hab (ha.1.trans hb.1.symm)).elim
  | node f l r hl hr => exact hl.ne_null

theorem encode_decode_tree (input : List Byte) (hz : (0 : Byte) ∉ input)
    (h2 : ∃ a ∈ input, ∃ b ∈ input, a ≠ b) :
    decodeWalk (buildTree (countFreq input)) (buildTree (countFreq input))
      (encodeLoop (codeTable (countFreq input)) input) = some input := by
  obtain ⟨hnd, hkeys⟩ := countFreq_keys input
  obtain ⟨a, ha, b, hb, hab⟩ := h2
  have hne : countFreq input ≠ [] := by
    intro h
    have := (hkeys a).mpr ha
    rw [h] at this
    simp at this
  obtain ⟨hg, hperm, hcodes⟩ := buildTree_spec (countFreq input) hne
  have hkperm : List.Perm ((leaves (buildTree (countFreq input))).map Prod.fst)
      ((countFreq input).map Prod.fst) := hperm.map _
  have hnd2 := hkperm.nodup_iff.mpr hnd
  have hmem : ∀ c ∈ input, ∃ f, (c, f) ∈ leaves (buildTree (countFreq input)) := by
    intro c hc
    have := hkperm.mem_iff.mpr ((hkeys c).mpr hc)
    obtain ⟨⟨c2, f⟩, h1, h2⟩ := List.mem_map.mp this
    simp only at h2
    subst h2
    exact ⟨f, h1⟩
  have hroot : (buildTree (countFreq input)).left.isNull = false := by
    obtain ⟨fa, hfa⟩ := hmem a ha
    obtain ⟨fb, hfb⟩ := hmem b hb
    exact good_not_leaf hg a b fa fb hfa hfb hab
  rw [hcodes]
  apply decodeWalk_encodeLoop _ hg hroot
  intro c hc
  obtain ⟨f, hf⟩ := hmem c hc
  have hc0 : c ≠ 0 := fun h => hz (h ▸ hc)
  obtain ⟨p, hp1, hp2⟩ := buildCodes_complete hg [] [] c f hnd2 hf hc0
  exact ⟨p, f, by simpa using hp2, hp1⟩

/-! ## Single-symbol and empty inputs -/

theorem pqPush_nil (x : HuffmanNode) : pqPush [] x = [x] := by
  simp [pqPush, pushHeap, pushHeapLoop, at_]

theorem buildQueue_single (c : Byte) (n : Nat) : buildQueue [(c, n)] = [HuffmanNode.new c n] := by
  simp [buildQueue, pushLeaves, pqPush_nil, mergeLoop]

theorem codeTable_single (c : Byte) (n : Nat) :
    codeTable [(c, n)] = if c ≠ 0 then [(c, [])] else [] := by
  simp [codeTable, buildQueue_single, pqTop, at_, buildCodes_new, mapAssign]

theorem buildTree_single (c : Byte) (n : Nat) : buildTree [(c, n)] = HuffmanNode.new c n := by
  simp [buildTree, buildQueue_single, pqTop, at_]

theorem countFreq_replicate_aux (c : Byte) (n : Nat) : ∀ k : Nat,
    (List.replicate n c).foldl mapIncr [(c, k)] = [(c, k + n)] := by
  induction n with
  | zero => intro k; rfl
  | succ n ih =>
    intro k
    rw [List.replicate_succ, List.foldl_cons]
    have : mapIncr [(c, k)] c = [(c, k + 1)] := by simp [mapIncr]
    rw [this, ih (k + 1)]
    congr 2
    omega

theorem countFreq_replicate (c : Byte) (n : Nat) (hn : 1 ≤ n) :
    countFreq (List.replicate n c) = [(c, n)] := by
  obtain ⟨m, rfl⟩ : ∃ m, n = m + 1 := ⟨n - 1, by omega⟩
  unfold countFreq
  rw [List.replicate_succ, List.foldl_cons]
  have : mapIncr [] c = [(c, 1)] := rfl
  rw [this, countFreq_replicate_aux c m 1]
  congr 2
  omega

theorem encodeLoop_replicate_single (c : Byte) (n : Nat) :
    encodeLoop [(c, [])] (List.replicate n c) = [] := by
  induction n with
  | zero => rfl
  | succ n ih =>
    rw [List.replicate_succ, encodeLoop_cons_some _ c _ [] (by simp [List.lookup]), ih]
    rfl

theorem encodeLoop_replicate_nil (c : Byte) (n : Nat) :
    encodeLoop [] (List.replicate n c) = [] := by
  cases n with
  | zero => rfl
  | succ n =>
    rw [List.replicate_succ, encodeLoop]
    simp only [List.lookup]
    exact encodeLoop_replicate_single c n

theorem encodeLoop_single_input (c : Byte) (n k : Nat) :
    encodeLoop (codeTable [(c, k)]) (List.replicate n c) = [] := by
  rw [codeTable_single]
  split
  · exact encodeLoop_replicate_single c n
  · exact encodeLoop_replicate_nil c n

theorem compress_replicate (c : Byte) (n : Nat) (useHamming : Bool) (hn : 1 ≤ n) :
    compress (List.replicate n c) useHamming =
      { useHamming := useHamming, freqMap := [(c, n)], originalBits := 0, encodedBits := 0,
        payload := [] } := by
  unfold compress
  simp only [countFreq_replicate c n hn, encodeLoop_single_input]
  cases useHamming <;> rfl

theorem decodeWalk_nil (root t : HuffmanNode) : decodeWalk root t [] = some [] := by
  cases t <;> rfl

/-! ## The claims -/

theorem roundTrip_eq_decodeWalk (input : List Byte) (useHamming : Bool) :
    roundTrip input useHamming =
      decodeWalk (buildTree (countFreq input)) (buildTree (countFreq input))
        (encodeLoop (codeTable (countFreq input)) input) := by
  unfold roundTrip decompress compress
  cases useHamming
  · simp only [Bool.false_eq_true, if_false]
    rw [(unpack_pack _).1, List.take_length]
  · simp only [if_true]
    rw [(unpack_pack _).1, hammingDecode_hammingEncode]

/-- C1 (counterexample): the one-byte input "A" is not reproduced without error
correction; its only symbol gets the empty code, so nothing is decoded. -/
theorem roundTrip_plain_fails_on_single_byte :
    roundTrip [65] false = some [] ∧ roundTrip [65] false ≠ some [65] := by
  decide

/-- C1 (amended): for every byte sequence holding at least two distinct byte
values and no zero byte, `decompress` applied to the frequency table, bit
counts and payload of `compress(B, false)` yields exactly `B`. -/
theorem roundTrip_plain (B : List Byte) (hz : (0 : Byte) ∉ B)
    (h2 : ∃ a ∈ B, ∃ b ∈ B, a ≠ b) : roundTrip B false = some B := by
  rw [roundTrip_eq_decodeWalk]
  exact encode_decode_tree B hz h2

/-- C1 (witness): the input "Hi!" satisfies the hypotheses and is reproduced. -/
theorem roundTrip_plain_witness : roundTrip [72, 105, 33] false = some [72, 105, 33] :=
  roundTrip_plain [72, 105, 33] (by decide) ⟨72, by decide, 105, by decide, by decide⟩

/-- C2 (counterexample): the input "BB" is not reproduced with error correction;
the decoder returns no byte at all. -/
theorem roundTrip_hamming_fails_on_repeated_byte :
    roundTrip [66, 66] true = some [] ∧ roundTrip [66, 66] true ≠ some [66, 66] := by
  decide

/-- C2 (amended): for every byte sequence that is empty, or holds at least two
distinct byte values and no zero byte, `decompress` applied to what
`compress(B, true)` produces yields exactly `B`. -/
theorem roundTrip_hamming (B : List Byte)
    (h : B = [] ∨ ((0 : Byte) ∉ B ∧ ∃ a ∈ B, ∃ b ∈ B, a ≠ b)) : roundTrip B true = some B := by
  rcases h with h | ⟨hz, h2⟩
  · subst h; rfl
  · rw [roundTrip_eq_decodeWalk]
    exact encode_decode_tree B hz h2

/-- C2 (witness): the scenario input "AAAB" of the specification is reproduced. -/
theorem roundTrip_hamming_witness : roundTrip [65, 65, 65, 66] true = some [65, 65, 65, 66] :=
  roundTrip_hamming [65, 65, 65, 66]
    (Or.inr ⟨by decide, 65, by decide, 66, by decide, by decide⟩)

/-- C3: for every 4-bit data block `d` and every position `k` in 1..7,
`hammingDecodeBlock` applied to `hammingEncodeBlock d` with the bit at position
`k` inverted returns `d`. -/
theorem hammingDecodeBlock_flipBit (d : List Bool) (k : Nat) (hd : d.length = 4)
    (h1 : 1 ≤ k) (h7 : k ≤ 7) :
    hammingDecodeBlock (flipBit (hammingEncodeBlock d) k) = d := by
  match d, hd with
  | [d1, d2, d3, d4], _ =>
    have hk : k = 1 ∨ k = 2 ∨ k = 3 ∨ k = 4 ∨ k = 5 ∨ k = 6 ∨ k = 7 := by omega
    revert d1 d2 d3 d4
    rcases hk with h | h | h | h | h | h | h <;> subst h <;> decide

/-- C3 (witness): "0001" encodes to "1101001"; with position 3 inverted the
block is "1111001" and still decodes to "0001". -/
theorem hammingDecodeBlock_flipBit_witness :
    hammingEncodeBlock [false, false, false, true] = [true, true, false, true, false, false, true] ∧
    flipBit [true, true, false, true, false, false, true] 3
      = [true, true, true, true, false, false, true] ∧
    hammingDecodeBlock (flipBit (hammingEncodeBlock [false, false, false, true]) 3)
      = [false, false, false, true] :=
  ⟨by decide, by decide,
    hammingDecodeBlock_flipBit [false, false, false, true] 3 rfl (by decide) (by decide)⟩

/-- C4: for every bit string `s`, if `e2` differs from the output of
`hammingEncode s` by at most one inverted bit inside each consecutive 7-bit
block, then `hammingDecode` of `e2` with the recorded length returns `s`. -/
theorem hammingDecode_corrects_stream (s e2 : List Bool)
    (h : AtMostOneFlipPerBlock (hammingEncode s).1 e2) :
    hammingDecode e2 (hammingEncode s).2 = s :=
  hammingDecode_of_flips s e2 h

/-- C4 (witness): the 5-bit string "10110" is encoded in two blocks; with bit 3
of the first block and bit 5 of the second inverted it is still decoded. -/
theorem hammingDecode_corrects_stream_witness :
    (hammingEncode [true, false, true, true, false]).1
      = [false, true, true, false, false, true, true, false, false, false, false, false, false, false] ∧
    hammingDecode
      [false, true, false, false, false, true, true, false, false, false, false, true, false, false]
      (hammingEncode [true, false, true, true, false]).2 = [true, false, true, true, false] := by
  refine ⟨by decide, hammingDecode_corrects_stream [true, false, true, true, false] _ ⟨by decide, ?_⟩⟩
  intro j
  match j with
  | 0 => decide
  | 1 => decide
  | j + 2 =>
    have h : (hammingEncode [true, false, true, true, false]).1
      = [false, true, true, false, false, true, true, false, false, false, false, false, false, false] := by
      decide
    rw [h, blockErrors_tail, blockErrors_tail]
    simp [blockErrors]

/-- C5: in the code table that `buildCodes` derives from the tree built from a
frequency table, no symbol's code is an initial segment of the code of a
different symbol. -/
theorem codeTable_codes_incomparable (freqMap : FreqMap) (a b : Byte) (ca cb : List Bool)
    (hab : a ≠ b) (ha : (codeTable freqMap).lookup a = some ca)
    (hb : (codeTable freqMap).lookup b = some cb) : ¬ ca <+: cb ∧ ¬ cb <+: ca := by
  by_cases hne : freqMap = []
  · subst hne
    simp [codeTable_nil, List.lookup] at ha
  · obtain ⟨hg, _, hcodes⟩ := buildTree_spec freqMap hne
    rw [hcodes] at ha hb
    exact ⟨prefix_free_of_good hg a b ca cb hab ha hb,
      prefix_free_of_good hg b a cb ca (fun h => hab h.symm) hb ha⟩

/-- C5 (witness): for the table of "AAAB" the codes are "1" for A and "0" for B. -/
theorem codeTable_codes_incomparable_witness :
    (codeTable [(65, 3), (66, 1)]).lookup 65 = some [true] ∧
    (codeTable [(65, 3), (66, 1)]).lookup 66 = some [false] ∧
    ¬ [true] <+: [false] ∧ ¬ [false] <+: [true] :=
  ⟨by decide, by decide,
    codeTable_codes_incomparable [(65, 3), (66, 1)] 65 66 [true] [false] (by decide)
      (by decide) (by decide)⟩

section TieBreak

set_option maxRecDepth 100000

/-- C6 (the code at the failing input): the ten entries of `tieTable` pushed in
the listed order and in the reverse order give different code tables: 'b'
gets "1000" in one and "1100" in the other, and the payload that `compress`
writes for "aaabcdefffghij" decodes to "aaaghijfffbcde" when the decoder pushes
the same entries in reverse order (and likewise when the encoder pushes them
in reverse order and the decoder in the listed order). -/
theorem codeTable_depends_on_push_order :
    List.Perm tieTable tieTable.reverse ∧
    countFreq tieInput = tieTable ∧
    (codeTable tieTable).lookup 98 = some [true, false, false, false] ∧
    (codeTable tieTable.reverse).lookup 98 = some [true, true, false, false] ∧
    decompress false tieTable.reverse (compress tieInput false).originalBits
      (compress tieInput false).encodedBits (compress tieInput false).payload
      = some [97, 97, 97, 103, 104, 105, 106, 102, 102, 102, 98, 99, 100, 101] ∧
    decodeWalk (buildTree tieTable) (buildTree tieTable)
      (encodeLoop (codeTable tieTable.reverse) tieInput)
      = some [97, 97, 97, 103, 104, 105, 106, 102, 102, 102, 98, 99, 100, 101] := by
  refine ⟨(List.reverse_perm _).symm, ?_, ?_, ?_, ?_, ?_⟩ <;> decide

end TieBreak

/-- C7 (counterexample): three copies of the byte 'C' compress to an empty bit
string under either flag, and decompression returns no byte. -/
theorem roundTrip_fails_on_three_copies :
    roundTrip (List.replicate 3 67) false = some [] ∧
    roundTrip (List.replicate 3 67) true = some [] ∧
    roundTrip (List.replicate 3 67) false ≠ some (List.replicate 3 67) ∧
    roundTrip (List.replicate 3 67) true ≠ some (List.replicate 3 67) := by
  decide

/-- C7 (amended): for every byte value `c` and every `n ≥ 1`, compressing `n`
copies of `c` (with or without error correction) records the frequency table
`{c: n}`, `originalBits = 0`, `encodedBits = 0` and an empty payload, and
decompressing that result yields the empty byte sequence. -/
theorem roundTrip_single_symbol (c : Byte) (n : Nat) (useHamming : Bool) (hn : 1 ≤ n) :
    compress (List.replicate n c) useHamming =
      { useHamming := useHamming, freqMap := [(c, n)], originalBits := 0, encodedBits := 0,
        payload := [] } ∧
    roundTrip (List.replicate n c) useHamming = some [] := by
  refine ⟨compress_replicate c n useHamming hn, ?_⟩
  rw [roundTrip_eq_decodeWalk, countFreq_replicate c n hn, encodeLoop_single_input]
  exact decodeWalk_nil _ _

/-- C7 (witness): five copies of the zero byte, with error correction. -/
theorem roundTrip_single_symbol_witness :
    compress (List.replicate 5 0) true =
      { useHamming := true, freqMap := [(0, 5)], originalBits := 0, encodedBits := 0,
        payload := [] } ∧
    roundTrip (List.replicate 5 0) true = some [] :=
  roundTrip_single_symbol 0 5 true (by decide)

/-- C8: for every bit string `s`, unpacking the bytes produced by packing `s`
and truncating to `|s|` bits returns `s`, and the packed form has
`ceil(|s| / 8)` bytes. -/
theorem unpackBits_packBits (s : List Bool) :
    unpackBits (packBits s) s.length = s ∧ (packBits s).length = (s.length + 7) / 8 :=
  unpack_pack s

/-- Every symbol of the table other than the zero byte is in the code table,
mapped to the path from the root to its leaf. -/
theorem codeTable_complete_nonzero (freqMap : FreqMap) (hnd : (freqMap.map Prod.fst).Nodup)
    (c : Byte) (f : Nat) (hmem : (c, f) ∈ freqMap) (hc : c ≠ 0) :
    ∃ code, (codeTable freqMap).lookup c = some code ∧
      descend (buildTree freqMap) code = HuffmanNode.new c f := by
  have hne : freqMap ≠ [] := by intro h; simp [h] at hmem
  obtain ⟨hg, hperm, hcodes⟩ := buildTree_spec freqMap hne
  have hnd2 : ((leaves (buildTree freqMap)).map Prod.fst).Nodup :=
    (hperm.map Prod.fst).nodup_iff.mpr hnd
  obtain ⟨p, hp1, hp2⟩ := buildCodes_complete hg [] [] c f hnd2 (hperm.mem_iff.mpr hmem) hc
  exact ⟨p, by rw [hcodes]; simpa using hp2, hp1⟩

/-- C9 (the code at the failing input): for the table `{0x00: 1, 'A': 1}` the leaf
of the zero byte is the left child of the root, at path "0", but the code
table holds no entry for the zero byte; 'A' is mapped to its path "1". -/
theorem codeTable_misses_zero_byte :
    descend (buildTree [(0, 1), (65, 1)]) [false] = HuffmanNode.new 0 1 ∧
    (codeTable [(0, 1), (65, 1)]).lookup 0 = none ∧
    codeTable [(0, 1), (65, 1)] = [(65, [true])] ∧
    roundTrip [0, 65] false = some [65] := by
  decide

/-- C10: `compress` of the empty byte sequence (either flag) produces an empty
frequency table, `originalBits = 0`, `encodedBits = 0` and an empty payload;
no node is pushed, the root is `nullptr` and `buildCodes` records nothing; and
`decompress` of that result produces the empty byte sequence. -/
theorem compress_decompress_empty (useHamming : Bool) :
    compress [] useHamming =
      { useHamming := useHamming, freqMap := [], originalBits := 0, encodedBits := 0,
        payload := [] } ∧
    pushLeaves (compress [] useHamming).freqMap = [] ∧
    buildTree (compress [] useHamming).freqMap = HuffmanNode.null ∧
    codeTable (compress [] useHamming).freqMap = [] ∧
    decompress useHamming [] 0 0 [] = some [] ∧
    roundTrip [] useHamming = some [] := by
  cases useHamming <;> decide

/-! ## Bit counts -/

theorem encodeLoop_length (input : List Byte) : ∀ codes : CodeMap,
    (encodeLoop codes input).length
      = (input.map (fun ch => ((codes.lookup ch).getD []).length)).sum := by
  induction input with
  | nil => intro codes; rfl
  | cons c rest ih =>
    intro codes
    rw [encodeLoop]
    cases hl : codes.lookup c with
    | some s =>
      simp only [List.length_append, ih, List.map_cons, List.sum_cons, hl, Option.getD_some]
    | none =>
      simp only [ih, List.map_cons, List.sum_cons, hl, Option.getD_none, List.length_nil,
        Nat.zero_add]
      congr 1
      apply List.map_congr_left
      intro ch _
      rw [lookup_mapAssign]
      split
      · next h => subst h; simp [hl]
      · rfl

theorem hammingEncode_length (data : List Bool) :
    (hammingEncode data).1.length = 7 * ((data.length + 3) / 4) ∧
    (hammingEncode data).2 = data.length := by
  unfold hammingEncode
  simp only [hammingEncodeLoop_length, List.length_append, List.length_replicate, and_true]
  have h : data.length + ((data.length + 3) / 4 * 4 - data.length) = (data.length + 3) / 4 * 4 := by
    omega
  rw [h, Nat.mul_div_cancel _ (by norm_num : 0 < 4)]

/-- C11: for every input `B`, `originalBits` is the sum over the bytes of `B` of
the length of the code `huffCodes[ch]` of that byte; `encodedBits` equals
`originalBits` without error correction and `7 * ceil(originalBits / 4)`
with it; and the payload has `ceil(encodedBits / 8)` bytes. -/
theorem compress_bit_counts (B : List Byte) (useHamming : Bool) :
    (compress B useHamming).originalBits
      = (B.map (fun ch => (((codeTable (countFreq B)).lookup ch).getD []).length)).sum ∧
    (compress B useHamming).encodedBits
      = (if useHamming then 7 * (((compress B useHamming).originalBits + 3) / 4)
         else (compress B useHamming).originalBits) ∧
    (compress B useHamming).payload.length = ((compress B useHamming).encodedBits + 7) / 8 := by
  unfold compress
  cases useHamming
  · simp only [Bool.false_eq_true, if_false]
    exact ⟨encodeLoop_length B _, trivial, (unpack_pack _).2⟩
  · simp only [if_true]
    refine ⟨?_, ?_, (unpack_pack _).2⟩
    · rw [(hammingEncode_length _).2]; exact encodeLoop_length B _
    · rw [(hammingEncode_length _).1, (hammingEncode_length _).2]

/-- C12: for every 4-bit block `d1 d2 d3 d4`, `hammingEncodeBlock` returns
`(p1, p2, d1, p3, d2, d3, d4)` with `p1 = d1 xor d2 xor d4`,
`p2 = d1 xor d3 xor d4`, `p3 = d2 xor d3 xor d4`; "0001" encodes to "1101001". -/
theorem hammingEncodeBlock_formula :
    (∀ d1 d2 d3 d4 : Bool,
      hammingEncodeBlock [d1, d2, d3, d4]
        = [(d1 != d2) != d4, (d1 != d3) != d4, d1, (d2 != d3) != d4, d2, d3, d4]) ∧
    hammingEncodeBlock [false, false, false, true]
      = [true, true, false, true, false, false, true] := by
  decide

/-- Round trip when the decoder pushes the table entries in the order the
encoder pushed them: for every byte sequence `B` that contains at least two
distinct byte values and no zero byte, and for either setting of the
error-correction flag, `decompress` applied to the frequency table in that
order, the bit counts and the payload of `compress(B, flag)` yields `B`. -/
theorem roundTrip_ordinary (B : List Byte) (useHamming : Bool) (hz : (0 : Byte) ∉ B)
    (h2 : ∃ a ∈ B, ∃ b ∈ B, a ≠ b) : roundTrip B useHamming = some B := by
  rw [roundTrip_eq_decodeWalk]
  exact encode_decode_tree B hz h2

/-- The input "abracadabra" with error correction, decoded with the table in the
encoder's push order. -/
theorem roundTrip_ordinary_witness :
    roundTrip [97, 98, 114, 97, 99, 97, 100, 97, 98, 114, 97] true
      = some [97, 98, 114, 97, 99, 97, 100, 97, 98, 114, 97] :=
  roundTrip_ordinary [97, 98, 114, 97, 99, 97, 100, 97, 98, 114, 97] true (by decide)
    ⟨97, by decide, 98, by decide, by decide⟩

/-- C19: for every 4-bit data block `d` and every pair of distinct positions
`i`, `j` in 1..7, `hammingDecodeBlock` applied to `hammingEncodeBlock d` with the
bits at `i` and `j` both inverted returns a block different from `d`. -/
theorem hammingDecodeBlock_two_flips (d : List Bool) (i j : Nat) (hd : d.length = 4)
    (hi1 : 1 ≤ i) (hi7 : i ≤ 7) (hj1 : 1 ≤ j) (hj7 : j ≤ 7) (hij : i ≠ j) :
    hammingDecodeBlock (flipTwoBits (hammingEncodeBlock d) i j) ≠ d ∧
    (hammingDecodeBlock (flipTwoBits (hammingEncodeBlock d) i j)).length = 4 := by
  match d, hd with
  | [d1, d2, d3, d4], _ =>
    have hi : i = 1 ∨ i = 2 ∨ i = 3 ∨ i = 4 ∨ i = 5 ∨ i = 6 ∨ i = 7 := by omega
    have hj : j = 1 ∨ j = 2 ∨ j = 3 ∨ j = 4 ∨ j = 5 ∨ j = 6 ∨ j = 7 := by omega
    revert d1 d2 d3 d4
    rcases hi with h | h | h | h | h | h | h <;> subst h <;>
      rcases hj with h | h | h | h | h | h | h <;> subst h <;>
      first
        | exact absurd rfl hij
        | decide

/-- C19 (witness): "0001" is encoded as "1101001"; with the parity bits 1 and 2
inverted the block "0001001" is decoded to "1001". -/
theorem hammingDecodeBlock_two_flips_witness :
    flipTwoBits (hammingEncodeBlock [false, false, false, true]) 1 2
      = [false, false, false, true, false, false, true] ∧
    hammingDecodeBlock (flipTwoBits (hammingEncodeBlock [false, false, false, true]) 1 2)
      = [true, false, false, true] ∧
    hammingDecodeBlock (flipTwoBits (hammingEncodeBlock [false, false, false, true]) 1 2)
      ≠ [false, false, false, true] :=
  ⟨by decide, by decide,
    (hammingDecodeBlock_two_flips [false, false, false, true] 1 2 rfl (by decide) (by decide)
      (by decide) (by decide) (by decide)).1⟩

/-! ## Tables with two symbols -/

theorem pqPush_single (x y : HuffmanNode) :
    pqPush [x] y = if compare x y = true then [y, x] else [x, y] := by
  by_cases h : compare x y = true <;>
    simp [pqPush, pushHeap, pushHeapLoop, at_, h]

theorem mergeLoop_pair (p q : HuffmanNode) (fuel : Nat) :
    mergeLoop (fuel + 1) [p, q] = [HuffmanNode.mk 0 (p.freq + q.freq) p q] := by
  cases fuel <;>
    simp [mergeLoop, pqTop, pqPop, adjustHeap, adjustHeapLoop, pushHeap, pushHeapLoop, at_,
      pqPush]

theorem buildQueue_pair (x y : Byte × Nat) :
    buildQueue [x, y] =
      if compare (HuffmanNode.new x.1 x.2) (HuffmanNode.new y.1 y.2) = true then
        [HuffmanNode.mk 0 (y.2 + x.2) (HuffmanNode.new y.1 y.2) (HuffmanNode.new x.1 x.2)]
      else [HuffmanNode.mk 0 (x.2 + y.2) (HuffmanNode.new x.1 x.2) (HuffmanNode.new y.1 y.2)] := by
  unfold buildQueue pushLeaves
  simp only [List.foldl_cons, List.foldl_nil, pqPush_nil, pqPush_single]
  split
  · exact mergeLoop_pair _ _ 1
  · exact mergeLoop_pair _ _ 1

theorem charVal_of_lt (c : Byte) (h : c.val ≤ 127) : charVal c = (c.val : Int) := by
  unfold charVal
  simp [show c.val < 128 by omega]

theorem compare_leaves_first (a b : Byte) (fa fb : Nat) (ha : a.val ≤ 127) (hb : b.val ≤ 127)
    (hord : fa < fb ∨ (fa = fb ∧ a.val < b.val)) :
    compare (HuffmanNode.new a fa) (HuffmanNode.new b fb) = false ∧
    compare (HuffmanNode.new b fb) (HuffmanNode.new a fa) = true := by
  unfold compare
  simp only [HuffmanNode.new, HuffmanNode.freq, HuffmanNode.left, HuffmanNode.right,
    HuffmanNode.isNull, HuffmanNode.ch, Bool.and_self, if_true, charVal_of_lt a ha,
    charVal_of_lt b hb]
  rcases hord with h | ⟨h1, h2⟩
  · have h1 : ¬ fa = fb := by omega
    have h2 : ¬ fb = fa := by omega
    simp [h1, h2]
    omega
  · subst h1
    simp
    omega

/-- C16: for every frequency table with exactly two symbols `a` and `b` (byte
values 1..127) where `freq(a) < freq(b)`, or the frequencies are equal and
`a < b`, whichever entry is pushed first, the node of `a` is removed first and
becomes the left child, and the code table is `{a: "0", b: "1"}`. -/
theorem two_symbol_codes (a b : Byte) (fa fb : Nat) (freqMap : FreqMap)
    (ha : 1 ≤ a.val ∧ a.val ≤ 127) (hb : 1 ≤ b.val ∧ b.val ≤ 127) (hab : a ≠ b)
    (hord : fa < fb ∨ (fa = fb ∧ a.val < b.val))
    (htable : freqMap = [(a, fa), (b, fb)] ∨ freqMap = [(b, fb), (a, fa)]) :
    buildTree freqMap
      = HuffmanNode.mk 0 (fa + fb) (HuffmanNode.new a fa) (HuffmanNode.new b fb) ∧
    codeTable freqMap = [(a, [false]), (b, [true])] := by
  obtain ⟨h1, h2⟩ := compare_leaves_first a b fa fb ha.2 hb.2 hord
  have ha0 : a ≠ 0 := by
    intro h; rw [h] at ha; simp at ha
  have hb0 : b ≠ 0 := by
    intro h; rw [h] at hb; simp at hb
  have hq : buildQueue freqMap
      = [HuffmanNode.mk 0 (fa + fb) (HuffmanNode.new a fa) (HuffmanNode.new b fb)] := by
    rcases htable with h | h <;> subst h <;> rw [buildQueue_pair] <;> simp [h1, h2]
  have hba : ¬ b = a := fun h => hab h.symm
  constructor
  · simp [buildTree, hq, pqTop, at_]
  · simp [codeTable, hq, pqTop, at_, buildCodes, HuffmanNode.new, ha0, hb0, mapAssign, hab]

/-- C16 (witness): the input "AAAB" has the table `{A: 3, B: 1}`; B is removed
first, the codes are `{B: "0", A: "1"}` and the bit string is "1110". -/
theorem two_symbol_codes_witness :
    countFreq [65, 65, 65, 66] = [(65, 3), (66, 1)] ∧
    encodeLoop (codeTable (countFreq [65, 65, 65, 66])) [65, 65, 65, 66]
      = [true, true, true, false] ∧
    buildTree [(65, 3), (66, 1)]
      = HuffmanNode.mk 0 (1 + 3) (HuffmanNode.new 66 1) (HuffmanNode.new 65 3) ∧
    codeTable [(65, 3), (66, 1)] = [(66, [false]), (65, [true])] :=
  ⟨by decide, by decide,
    two_symbol_codes 66 65 1 3 [(65, 3), (66, 1)] (by decide) (by decide) (by decide)
      (Or.inl (by decide)) (Or.inr rfl)⟩

/-! ## Layout of the packed bytes -/

theorem packPad_init : PackPad { byte := Bitset8.zero, bitCount := 0, out := [] } := by
  simp [PackPad, Bitset8.zero, Bitset8.toBitString]

theorem packPad_step (st : PackState) (p : List Bool) (bit : Bool) (h : PackInv st p)
    (hpad : PackPad st) : PackPad (packStep st bit) := by
  obtain ⟨byte, c, out⟩ := st
  obtain ⟨hlen, hc, _, _⟩ := h
  simp only at hlen hc
  unfold PackPad at hpad ⊢
  simp only at hpad
  rcases byte with _ | ⟨a0, _ | ⟨a1, _ | ⟨a2, _ | ⟨a3, _ | ⟨a4, _ | ⟨a5, _ | ⟨a6, _ | ⟨a7, _ | ⟨a8, t⟩⟩⟩⟩⟩⟩⟩⟩⟩ <;>
    simp only [List.length_cons, List.length_nil] at hlen <;> try omega
  have hcases : c = 0 ∨ c = 1 ∨ c = 2 ∨ c = 3 ∨ c = 4 ∨ c = 5 ∨ c = 6 ∨ c = 7 := by omega
  rcases hcases with h | h | h | h | h | h | h | h <;> subst h <;>
    simp [Bitset8.toBitString, List.replicate] at hpad <;>
    simp [packStep, Bitset8.toBitString, Bitset8.zero, List.replicate, hpad]

theorem packPad_foldl (l : List Bool) : ∀ (st : PackState) (p : List Bool), PackInv st p →
    PackPad st → PackPad (l.foldl packStep st) := by
  induction l with
  | nil => intro st p _ h; exact h
  | cons b t ih =>
    intro st p h hpad
    exact ih (packStep st b) (p ++ [b]) (packInv_step st p b h) (packPad_step st p b h hpad)

/-- The packed bytes, expanded most significant bit first, are the bit string
followed by zero bits up to the next byte boundary. -/
theorem unpack_full (s : List Bool) :
    (packBits s).flatMap (fun c => Bitset8.toBitString (Bitset8.ofByte c))
      = s ++ List.replicate (8 * (packBits s).length - s.length) false := by
  have hlen := (unpack_pack s).2
  have h := packInv_foldl s _ [] packInv_init
  have hpad := packPad_foldl s _ [] packInv_init packPad_init
  simp only [List.nil_append] at h
  unfold packBits at hlen ⊢
  generalize s.foldl packStep { byte := Bitset8.zero, bitCount := 0, out := [] } = st
    at h hpad hlen
  obtain ⟨byte, c, out⟩ := st
  obtain ⟨hblen, hc, hout, hp⟩ := h
  unfold PackPad at hpad
  simp only at hblen hc hout hp hpad hlen ⊢
  rcases byte with _ | ⟨a0, _ | ⟨a1, _ | ⟨a2, _ | ⟨a3, _ | ⟨a4, _ | ⟨a5, _ | ⟨a6, _ | ⟨a7, _ | ⟨a8, t⟩⟩⟩⟩⟩⟩⟩⟩⟩ <;>
    simp only [List.length_cons, List.length_nil] at hblen <;> try omega
  split
  · next hpos =>
    rw [if_pos hpos] at hlen
    rw [List.flatMap_append]
    simp only [List.flatMap_cons, List.flatMap_nil, List.append_nil, ofByte_toChar]
    have hsplit : Bitset8.toBitString [a0, a1, a2, a3, a4, a5, a6, a7]
        = (Bitset8.toBitString [a0, a1, a2, a3, a4, a5, a6, a7]).take c
          ++ (Bitset8.toBitString [a0, a1, a2, a3, a4, a5, a6, a7]).drop c :=
      (List.take_append_drop _ _).symm
    rw [hsplit, ← List.append_assoc, hp, hpad]
    congr 2
    simp only [List.length_append, List.length_singleton]
    omega
  · next hzero =>
    rw [if_neg hzero] at hlen
    have hc0 : c = 0 := by omega
    subst hc0
    simp only [List.take_zero, List.append_nil] at hp
    rw [hp]
    have : 8 * out.length - s.length = 0 := by omega
    simp [this]

theorem toBitString_ofByte_getD (c : Byte) (j : Nat) (hj : j < 8) :
    (Bitset8.toBitString (Bitset8.ofByte c)).getD j false = c.val.testBit (7 - j) := by
  have hcases : j = 0 ∨ j = 1 ∨ j = 2 ∨ j = 3 ∨ j = 4 ∨ j = 5 ∨ j = 6 ∨ j = 7 := by omega
  rcases hcases with h | h | h | h | h | h | h | h <;> subst h <;> rfl

theorem toBitString_ofByte_length (c : Byte) :
    (Bitset8.toBitString (Bitset8.ofByte c)).length = 8 := by
  simp [Bitset8.toBitString, Bitset8.ofByte]

theorem flatMap_getD (l : List Byte) : ∀ i : Nat, i < 8 * l.length →
    (l.flatMap (fun c => Bitset8.toBitString (Bitset8.ofByte c))).getD i false
      = (Bitset8.toBitString (Bitset8.ofByte (l.getD (i / 8) 0))).getD (i % 8) false := by
  induction l with
  | nil => intro i h; simp at h
  | cons c t ih =>
    intro i h
    rw [List.flatMap_cons]
    by_cases hi : i < 8
    · rw [List.getD_append _ _ _ _ (by rw [toBitString_ofByte_length]; exact hi)]
      have h1 : i / 8 = 0 := by omega
      have h2 : i % 8 = i := by omega
      rw [h1, h2]
      rfl
    · rw [List.getD_append_right _ _ _ _ (by rw [toBitString_ofByte_length]; omega),
        toBitString_ofByte_length, ih (i - 8) (by simp at h; omega)]
      have h1 : i / 8 = (i - 8) / 8 + 1 := by omega
      have h2 : i % 8 = (i - 8) % 8 := by omega
      rw [h1, h2]
      rfl

theorem packBits_testBit (s : List Bool) (i : Nat) (hi : i < 8 * (packBits s).length) :
    ((packBits s).getD (i / 8) 0).val.testBit (7 - i % 8) = s.getD i false := by
  rw [← toBitString_ofByte_getD _ _ (Nat.mod_lt _ (by norm_num)), ← flatMap_getD _ i hi,
    unpack_full]
  by_cases h : i < s.length
  · rw [List.getD_append _ _ _ _ h]
  · rw [List.getD_append_right _ _ _ _ (by omega)]
    have hr : s.getD i false = false := by
      simp [List.getD_eq_getElem?_getD, List.getElem?_eq_none (by omega : s.length ≤ i)]
    rw [hr]
    simp only [List.getD_eq_getElem?_getD, List.getElem?_replicate]
    split <;> rfl

/-- C17: for every bit string `s`, bit `i` of `s` (0-based) is stored as bit
`7 - (i mod 8)` of payload byte `floor(i / 8)`, and the bits of the last byte
beyond the end of `s` are zero. -/
theorem packBits_layout (s : List Bool) :
    (∀ i, i < s.length →
      i / 8 < (packBits s).length ∧
      ((packBits s).getD (i / 8) 0).val.testBit (7 - i % 8) = s.getD i false) ∧
    (∀ i, s.length ≤ i → i < 8 * (packBits s).length →
      ((packBits s).getD (i / 8) 0).val.testBit (7 - i % 8) = false) := by
  have hlen := (unpack_pack s).2
  constructor
  · intro i hi
    exact ⟨by omega, packBits_testBit s i (by omega)⟩
  · intro i hi hi2
    rw [packBits_testBit s i hi2]
    simp [List.getD_eq_getElem?_getD, List.getElem?_eq_none hi]

/-- C17 (witness): "1101001" packs to the single byte `0b11010010`; bit 3 of the
string is bit 4 of that byte and the padding bit 7 of the string is bit 0. -/
theorem packBits_layout_witness :
    packBits [true, true, false, true, false, false, true] = [210] ∧
    (3 / 8 < (packBits [true, true, false, true, false, false, true]).length ∧
      ((packBits [true, true, false, true, false, false, true]).getD (3 / 8) 0).val.testBit
        (7 - 3 % 8) = [true, true, false, true, false, false, true].getD 3 false) ∧
    ((packBits [true, true, false, true, false, false, true]).getD (7 / 8) 0).val.testBit
        (7 - 7 % 8) = false :=
  ⟨by decide,
    (packBits_layout [true, true, false, true, false, false, true]).1 3 (by decide),
    (packBits_layout [true, true, false, true, false, false, true]).2 7 (by decide) (by decide)⟩

/-! ## The walk stays inside the tree -/

theorem good_descend {t : HuffmanNode} (ht : Good t) : ∀ (p : List Bool),
    (descend t p).isNull = false → Good (descend t p) := by
  induction ht with
  | leaf c f =>
    intro p h
    by_cases hp : p = []
    · subst hp; rw [descend_nil]; exact Good.leaf c f
    · rw [descend_new c f p hp] at h; simp [HuffmanNode.isNull] at h
  | node f l r hl hr ihl ihr =>
    intro p h
    cases p with
    | nil => rw [descend_nil]; exact Good.node f l r hl hr
    | cons b p =>
      rw [descend_cons] at h ⊢
      cases b
      · exact ihl p (by simpa using h)
      · exact ihr p (by simpa using h)

theorem good_children {c : Byte} {f : Nat} {l r : HuffmanNode}
    (h : Good (HuffmanNode.mk c f l r)) :
    (l.isNull = true ∧ r.isNull = true) ∨ (l.isNull = false ∧ r.isNull = false) := by
  cases h with
  | leaf => exact Or.inl ⟨rfl, rfl⟩
  | node _ _ _ hl hr => exact Or.inr ⟨hl.ne_null, hr.ne_null⟩

theorem decodeWalk_total_aux (root : HuffmanNode) (hroot : Good root)
    (hnl : root.left.isNull = false) (bits : List Bool) :
    ∀ t : HuffmanNode, Good t → t.left.isNull = false → ∃ out, decodeWalk root t bits = some out := by
  induction bits with
  | nil => intro t _ _; exact ⟨[], decodeWalk_nil root t⟩
  | cons b rest ih =>
    intro t ht hleft
    cases ht with
    | leaf c f => simp [HuffmanNode.new, HuffmanNode.left, HuffmanNode.isNull] at hleft
    | node f l r hl hr =>
      rw [decodeWalk_cons]
      have hgn : Good (if b = false then l else r) := by cases b <;> simpa
      generalize (if b = false then l else r) = next at hgn
      cases hgn with
      | leaf c1 f1 =>
        obtain ⟨out, hout⟩ := ih root hroot hnl
        exact ⟨c1 :: out, by simp [HuffmanNode.new, HuffmanNode.isNull, hout]⟩
      | node f1 l1 r1 hl1 hr1 =>
        have hnl1 : l1.isNull = false := hl1.ne_null
        simp only [hnl1, Bool.false_and]
        exact ih _ (Good.node f1 l1 r1 hl1 hr1) hnl1

theorem buildTree_not_leaf (freqMap : FreqMap) (h : 2 ≤ freqMap.length) :
    Good (buildTree freqMap) ∧ (buildTree freqMap).left.isNull = false := by
  have hne : freqMap ≠ [] := by intro h0; rw [h0] at h; simp at h
  obtain ⟨hg, hperm, _⟩ := buildTree_spec freqMap hne
  refine ⟨hg, ?_⟩
  have hlen := hperm.length_eq
  generalize buildTree freqMap = t at hg hlen
  cases hg with
  | leaf c f => rw [leaves_new] at hlen; simp at hlen; omega
  | node f l r hl hr => exact hl.ne_null

/-- C18: for every frequency table with at least two entries and every bit
string, the tree walk of `decompress` never dereferences a missing child, so
decoding returns a result for any bit counts and payload; and every node of
the built tree that has a child has both children. -/
theorem decodeWalk_never_fails (freqMap : FreqMap) (h : 2 ≤ freqMap.length) :
    (∀ bits : List Bool,
      ∃ out, decodeWalk (buildTree freqMap) (buildTree freqMap) bits = some out) ∧
    (∀ (useHamming : Bool) (originalBits encodedBits : Nat) (payload : List Byte),
      ∃ out, decompress useHamming freqMap originalBits encodedBits payload = some out) ∧
    (∀ (p : List Bool) (c : Byte) (f : Nat) (l r : HuffmanNode),
      descend (buildTree freqMap) p = HuffmanNode.mk c f l r →
      (l.isNull = false ∨ r.isNull = false) → l.isNull = false ∧ r.isNull = false) := by
  obtain ⟨hg, hnl⟩ := buildTree_not_leaf freqMap h
  refine ⟨fun bits => decodeWalk_total_aux _ hg hnl bits _ hg hnl, ?_, ?_⟩
  · intro useHamming originalBits encodedBits payload
    unfold decompress
    exact decodeWalk_total_aux _ hg hnl _ _ hg hnl
  · intro p c f l r hd hchild
    have hgd := good_descend hg p (by rw [hd]; rfl)
    rw [hd] at hgd
    rcases good_children hgd with ⟨h1, h2⟩ | h12
    · rcases hchild with h3 | h3
      · rw [h1] at h3; cases h3
      · rw [h2] at h3; cases h3
    · exact h12

/-- C18 (witness): with the table of "AAAB" the corrupted bit string "0110" is
decoded to "BAAB", and the root has both children. -/
theorem decodeWalk_never_fails_witness :
    decodeWalk (buildTree [(65, 3), (66, 1)]) (buildTree [(65, 3), (66, 1)])
      [false, true, true, false] = some [66, 65, 65, 66] ∧
    (∃ out, decodeWalk (buildTree [(65, 3), (66, 1)]) (buildTree [(65, 3), (66, 1)])
      [false, true, true, false] = some out) ∧
    ((HuffmanNode.new 66 1).isNull = false ∧ (HuffmanNode.new 65 3).isNull = false) :=
  ⟨by decide,
    (decodeWalk_never_fails [(65, 3), (66, 1)] (by decide)).1 [false, true, true, false],
    (decodeWalk_never_fails [(65, 3), (66, 1)] (by decide)).2.2 [] 0 4 (HuffmanNode.new 66 1)
      (HuffmanNode.new 65 3) (by decide) (Or.inl (by decide))⟩

/-! ## The comparator on internal nodes -/

/-- When the left children of two internal nodes of equal frequency are leaves,
`compare` ranks by the symbols of those leaves. -/
theorem compare_internal_leaf_children (f : Nat) (a b : Byte) (fa fb : Nat)
    (ra rb : HuffmanNode) (c1 c2 : Byte) :
    compare (HuffmanNode.mk c1 f (HuffmanNode.new a fa) ra)
        (HuffmanNode.mk c2 f (HuffmanNode.new b fb) rb)
      = decide (charVal a > charVal b) := by
  simp [compare, HuffmanNode.freq, HuffmanNode.left, HuffmanNode.right, HuffmanNode.isNull,
    HuffmanNode.new, HuffmanNode.ch]

section ComparatorEvaluation

set_option maxRecDepth 100000

/-- C14 (the code at the failing input): in the build of the table
`{a:2, b:1, c:1, d:1, e:1, f:2}` the internal nodes `(a f)` and `((b c) (d e))`,
both of frequency 4, are in the queue together after four merges.  The
leftmost leaf of `(a f)` is 'a', that of `((b c) (d e))` is 'b', yet `compare`
ranks `((b c) (d e))` first, and it becomes the left child of the root. -/
theorem compare_ignores_leftmost_leaf :
    nodeAF ∈ mergeLoop 4 (pushLeaves sixTable) ∧
    nodeBCDE ∈ mergeLoop 4 (pushLeaves sixTable) ∧
    nodeAF.freq = nodeBCDE.freq ∧
    nodeAF.left.isNull = false ∧ nodeBCDE.left.isNull = false ∧
    leftmostSymbol nodeAF = 97 ∧ leftmostSymbol nodeBCDE = 98 ∧
    compare nodeAF nodeBCDE = true ∧ compare nodeBCDE nodeAF = false ∧
    buildTree sixTable = HuffmanNode.mk 0 8 nodeBCDE nodeAF ∧
    buildTree sixTable.reverse = HuffmanNode.mk 0 8 nodeBCDE nodeAF := by
  decide

/-- C15 (the code at the failing input): in the build of `tieTable` the two
distinct internal nodes `((b c) (d e))` and `((g h) (i j))`, over disjoint
symbol sets, are in the queue together after six merges, and `compare` ranks
neither before the other. -/
theorem compare_leaves_internal_nodes_unordered :
    nodeBCDE ∈ mergeLoop 6 (pushLeaves tieTable) ∧
    nodeGHIJ ∈ mergeLoop 6 (pushLeaves tieTable) ∧
    nodeBCDE ≠ nodeGHIJ ∧
    (∀ x ∈ leaves nodeBCDE, x ∉ leaves nodeGHIJ) ∧
    compare nodeBCDE nodeGHIJ = false ∧ compare nodeGHIJ nodeBCDE = false := by
  decide

end ComparatorEvaluation

/-! ## The queue is a heap by frequency -/

theorem compare_true_freq (x y : HuffmanNode) (h : compare x y = true) : y.freq ≤ x.freq := by
  unfold compare at h
  by_cases hf : x.freq = y.freq
  · omega
  · simp only [hf, if_false, decide_eq_true_eq] at h
    omega

theorem compare_false_freq (x y : HuffmanNode) (h : ¬ compare x y = true) :
    x.freq ≤ y.freq := by
  unfold compare at h
  by_cases hf : x.freq = y.freq
  · omega
  · simp only [hf, if_false, decide_eq_true_eq] at h
    omega

theorem at_set (a : List HuffmanNode) (i k : Nat) (x : HuffmanNode) (hi : i < a.length) :
    at_ (a.set i x) k = if k = i then x else at_ a k := by
  by_cases h : k = i
  · subst h
    rw [at_eq_getElem _ _ (by simpa using hi)]
    simp
  · rw [at_set_ne a i k x (fun h2 => h h2.symm)]
    simp [h]

theorem holeInv_place (a : List HuffmanNode) (n hole : Nat) (v : HuffmanNode)
    (h : HoleInv a n hole v)
    (hp : 0 < hole → (at_ a ((hole - 1) / 2)).freq ≤ v.freq) :
    HeapOrdered (a.set hole v) n := by
  obtain ⟨hh, hn, i1, i2, _⟩ := h
  intro i hi0 hin
  rw [at_set a hole _ v (by omega), at_set a hole _ v (by omega)]
  by_cases h1 : i = hole
  · subst h1
    have : (i - 1) / 2 ≠ i := by omega
    simp only [this, if_false, if_true]
    exact hp hi0
  · by_cases h2 : (i - 1) / 2 = hole
    · simp only [h1, h2, if_false, if_true]
      exact i2 i hi0 hin h2
    · simp only [h1, h2, if_false]
      exact i1 i hi0 hin h1 h2

theorem holeInv_step (a : List HuffmanNode) (n hole : Nat) (v : HuffmanNode)
    (h : HoleInv a n hole v) (hpos : 0 < hole)
    (hv : v.freq ≤ (at_ a ((hole - 1) / 2)).freq) :
    HoleInv (a.set hole (at_ a ((hole - 1) / 2))) n ((hole - 1) / 2) v := by
  obtain ⟨hh, hn, i1, i2, i3⟩ := h
  have hlen : hole < a.length := by omega
  refine ⟨by omega, by simpa using hn, ?_, ?_, ?_⟩
  · intro i hi0 hin hne hpne
    rw [at_set a hole _ _ hlen, at_set a hole _ _ hlen]
    have hih : i ≠ hole := by intro h; subst h; exact hpne rfl
    by_cases h2 : (i - 1) / 2 = hole
    · simp only [hih, h2, if_false, if_true]
      exact i3 i hi0 hin h2 hpos
    · simp only [hih, h2, if_false]
      exact i1 i hi0 hin hih h2
  · intro i hi0 hin hpar
    rw [at_set a hole _ _ hlen]
    by_cases hih : i = hole
    · simp only [hih, if_true]; exact hv
    · simp only [hih, if_false]
      have := i1 i hi0 hin hih (by omega)
      rw [hpar] at this
      omega
  · intro i hi0 hin hpar hp0
    rw [at_set a hole _ _ hlen, at_set a hole _ _ hlen]
    have hpp : (((hole - 1) / 2 - 1) / 2 = hole) = False := by
      simp only [eq_iff_iff, iff_false]; omega
    simp only [hpp, if_false]
    have hp1 := i1 ((hole - 1) / 2) hp0 (by omega) (by omega) (by omega)
    by_cases hih : i = hole
    · simp only [hih, if_true]; exact hp1
    · simp only [hih, if_false]
      have := i1 i hi0 hin hih (by omega)
      rw [hpar] at this
      omega

theorem pushHeapLoop_heap (fuel : Nat) : ∀ (a : List HuffmanNode) (n hole : Nat)
    (v : HuffmanNode), hole < fuel → HoleInv a n hole v →
    HeapOrdered (pushHeapLoop fuel a hole 0 v) n := by
  induction fuel with
  | zero => intro a n hole v h; omega
  | succ k ih =>
    intro a n hole v hf h
    unfold pushHeapLoop
    simp only
    split
    · next hc =>
      exact ih _ n _ v (by omega) (holeInv_step a n hole v h hc.1 (compare_true_freq _ _ hc.2))
    · next hc =>
      apply holeInv_place a n hole v h
      intro hpos
      have : ¬ compare (at_ a ((hole - 1) / 2)) v = true := fun h2 => hc ⟨hpos, h2⟩
      exact compare_false_freq _ _ this

theorem at_append_left (c : List HuffmanNode) (x : HuffmanNode) (i : Nat) (h : i < c.length) :
    at_ (c ++ [x]) i = at_ c i := by
  simp [at_, List.getD_eq_getElem?_getD, List.getElem?_append_left h]

theorem pqPush_heap (c : List HuffmanNode) (x : HuffmanNode) (h : HeapOrdered c c.length) :
    HeapOrdered (pqPush c x) (pqPush c x).length := by
  rw [pqPush_length]
  unfold pqPush pushHeap
  simp only
  have hlen : (c ++ [x]).length - 1 = c.length := by simp
  have hat : at_ (c ++ [x]) c.length = x := by simp [at_]
  rw [hlen, hat]
  apply pushHeapLoop_heap _ _ _ _ _ (by omega)
  refine ⟨by omega, by simp, ?_, ?_, ?_⟩
  · intro i hi0 hin hne _
    rw [at_append_left c x _ (by omega), at_append_left c x _ (by omega)]
    exact h i hi0 (by omega)
  · intro i hi0 hin hpar; omega
  · intro i hi0 hin hpar; omega

theorem downInv_step (a : List HuffmanNode) (n hole child : Nat) (h : DownInv a n hole)
    (hc : child < n) (hpar : (child - 1) / 2 = hole) (hc0 : 0 < child)
    (hmin : ∀ i, 0 < i → i < n → (i - 1) / 2 = hole → (at_ a child).freq ≤ (at_ a i).freq) :
    DownInv (a.set hole (at_ a child)) n child := by
  obtain ⟨hh, hn, j1, j4⟩ := h
  have hlen : hole < a.length := by omega
  have hch : child ≠ hole := by omega
  refine ⟨hc, by simpa using hn, ?_, ?_⟩
  · intro i hi0 hin hne hpne
    rw [at_set a hole _ _ hlen, at_set a hole _ _ hlen]
    by_cases h1 : i = hole
    · subst h1
      have hpi : (i - 1) / 2 ≠ i := by omega
      simp only [hpi, if_false, if_true]
      exact j4 child hc0 hc hpar hi0
    · by_cases h2 : (i - 1) / 2 = hole
      · simp only [h1, h2, if_false, if_true]
        exact hmin i hi0 hin h2
      · simp only [h1, h2, if_false]
        exact j1 i hi0 hin h1 h2
  · intro i hi0 hin hpi _
    rw [at_set a hole _ _ hlen, at_set a hole _ _ hlen]
    have h1 : i ≠ hole := by omega
    simp only [hpar, h1, if_false, if_true]
    have := j1 i hi0 hin h1 (by omega)
    rw [hpi] at this
    exact this

theorem adjustHeapLoop_heap (fuel : Nat) : ∀ (a : List HuffmanNode) (hole n : Nat),
    (n - 1) / 2 ≤ hole + fuel → DownInv a n hole →
    DownInv (adjustHeapLoop fuel a hole hole n).1 n (adjustHeapLoop fuel a hole hole n).2.1 ∧
    (adjustHeapLoop fuel a hole hole n).2.2 = (adjustHeapLoop fuel a hole hole n).2.1 ∧
    (n - 1) / 2 ≤ (adjustHeapLoop fuel a hole hole n).2.1 := by
  induction fuel with
  | zero => intro a hole n hf h; exact ⟨h, rfl, by simpa using hf⟩
  | succ k ih =>
    intro a hole n hf h
    unfold adjustHeapLoop
    split
    · next hlt =>
      simp only
      have hmin : ∀ i, 0 < i → i < n → (i - 1) / 2 = hole →
          (at_ a (if compare (at_ a (2 * (hole + 1))) (at_ a (2 * (hole + 1) - 1)) = true
            then 2 * (hole + 1) - 1 else 2 * (hole + 1))).freq ≤ (at_ a i).freq := by
        intro i hi0 hin hpi
        have hi : i = 2 * (hole + 1) - 1 ∨ i = 2 * (hole + 1) := by omega
        split
        · next hc =>
          rcases hi with hi | hi
          · rw [hi]
          · rw [hi]; exact compare_true_freq _ _ hc
        · next hc =>
          rcases hi with hi | hi
          · rw [hi]; exact compare_false_freq _ _ hc
          · rw [hi]
      generalize hs : (if compare (at_ a (2 * (hole + 1))) (at_ a (2 * (hole + 1) - 1)) = true
        then 2 * (hole + 1) - 1 else 2 * (hole + 1)) = s at hmin
      have hs1 : s = 2 * (hole + 1) - 1 ∨ s = 2 * (hole + 1) := by
        rw [← hs]; split <;> simp
      have hsn : s < n := by omega
      exact ih _ s n (by omega) (downInv_step a n hole s h hsn (by omega) (by omega) hmin)
    · next hge =>
      refine ⟨h, rfl, ?_⟩
      show (n - 1) / 2 ≤ hole
      omega

theorem adjustHeap_heap (a : List HuffmanNode) (n : Nat) (v : HuffmanNode)
    (h : DownInv a n 0) : HeapOrdered (adjustHeap a 0 n v) n := by
  obtain ⟨r1, r2, r3⟩ := adjustHeapLoop_heap n a 0 n (by omega) h
  unfold adjustHeap
  simp only
  generalize adjustHeapLoop n a 0 0 n = r at r1 r2 r3
  obtain ⟨a2, hole2, sc2⟩ := r
  simp only at r1 r2 r3 ⊢
  rw [r2]
  clear r2
  have hn0 : 0 < n := h.1
  split
  · next hc =>
    have hlast : 2 * (hole2 + 1) - 1 = n - 1 := by omega
    rw [hlast]
    have hd := downInv_step a2 n hole2 (n - 1) r1 (by omega) (by omega) (by omega)
      (by
        intro i hi0 hin hpi
        have : i = n - 1 := by omega
        rw [this])
    obtain ⟨d1, d2, d3, _⟩ := hd
    apply pushHeapLoop_heap _ _ _ _ _ (by omega)
    exact ⟨d1, d2, d3, fun i hi0 hin hpi => by omega, fun i hi0 hin hpi => by omega⟩
  · next hc =>
    obtain ⟨d1, d2, d3, _⟩ := r1
    apply pushHeapLoop_heap _ _ _ _ _ (by omega)
    refine ⟨d1, d2, d3, fun i hi0 hin hpi => ?_, fun i hi0 hin hpi => ?_⟩
    · exfalso
      apply hc
      omega
    · exfalso
      apply hc
      omega

theorem at_dropLast (r : List HuffmanNode) (i : Nat) (h : i + 1 < r.length) :
    at_ r.dropLast i = at_ r i := by
  have h2 : i < r.length - 1 := by omega
  have h3 : i < r.length := by omega
  simp [at_, List.getD_eq_getElem?_getD, List.getElem?_dropLast, h2, List.getElem?_eq_getElem h3]

theorem pqPop_heap (c : List HuffmanNode) (h : HeapOrdered c c.length) :
    HeapOrdered (pqPop c) (pqPop c).length := by
  by_cases hne : c = []
  · subst hne; intro i hi0 hin; simp [pqPop] at hin
  have hl := pqPop_length c hne
  unfold pqPop at hl ⊢
  split
  · next hlen =>
    rw [if_pos hlen] at hl
    simp only at hl ⊢
    have hd : DownInv (c.set (c.length - 1) (at_ c 0)) (c.length - 1) 0 := by
      refine ⟨by omega, by simp, ?_, fun i hi0 hin hpi h0 => by omega⟩
      intro i hi0 hin hne0 hpne
      rw [at_set_ne c _ _ _ (by omega), at_set_ne c _ _ _ (by omega)]
      exact h i hi0 (by omega)
    have hr := adjustHeap_heap _ (c.length - 1) (at_ c (c.length - 1)) hd
    generalize adjustHeap (c.set (c.length - 1) (at_ c 0)) 0 (c.length - 1)
      (at_ c (c.length - 1)) = r at hr hl
    simp only [List.length_dropLast] at hl ⊢
    intro i hi0 hin
    rw [at_dropLast r _ (by omega), at_dropLast r _ (by omega)]
    exact hr i hi0 (by omega)
  · next hlen =>
    intro i hi0 hin
    simp only [List.length_dropLast] at hin
    omega

theorem heapOrdered_top_le (c : List HuffmanNode) (h : HeapOrdered c c.length) :
    ∀ i, i < c.length → (pqTop c).freq ≤ (at_ c i).freq := by
  intro i
  induction i using Nat.strong_induction_on with
  | _ i ih =>
    intro hi
    by_cases h0 : i = 0
    · subst h0; exact Nat.le_refl _
    · have h1 := ih ((i - 1) / 2) (by omega) (by omega)
      have h2 := h i (by omega) hi
      omega

theorem pqTop_min (c : List HuffmanNode) (h : HeapOrdered c c.length) :
    ∀ x ∈ c, (pqTop c).freq ≤ x.freq := by
  intro x hx
  obtain ⟨i, hi, rfl⟩ := List.getElem_of_mem hx
  rw [← at_eq_getElem c i hi]
  exact heapOrdered_top_le c h i hi

theorem pushLeaves_heap_aux (freqMap : FreqMap) : ∀ acc : List HuffmanNode,
    HeapOrdered acc acc.length →
    HeapOrdered (freqMap.foldl (fun pq entry => pqPush pq (HuffmanNode.new entry.1 entry.2)) acc)
      (freqMap.foldl (fun pq entry => pqPush pq (HuffmanNode.new entry.1 entry.2)) acc).length := by
  induction freqMap with
  | nil => intro acc h; exact h
  | cons e t ih => intro acc h; exact ih _ (pqPush_heap acc _ h)

theorem pushLeaves_heap (freqMap : FreqMap) :
    HeapOrdered (pushLeaves freqMap) (pushLeaves freqMap).length :=
  pushLeaves_heap_aux freqMap [] (fun i _ hin => by simp at hin)

/-! ## Depth assignments and the Kraft inequality -/

theorem pathCost_cons (p : Nat × Nat) (L : List (Nat × Nat)) :
    pathCost (p :: L) = p.1 * p.2 + pathCost L := by
  simp [pathCost]

theorem pathCost_perm {L L2 : List (Nat × Nat)} (h : List.Perm L L2) :
    pathCost L = pathCost L2 := by
  unfold pathCost
  exact (h.map _).sum_eq

theorem kraftSum_cons (D d : Nat) (ds : List Nat) :
    kraftSum D (d :: ds) = 2 ^ (D - d) + kraftSum D ds := by
  simp [kraftSum]

theorem kraftSum_perm (D : Nat) {ds ds2 : List Nat} (h : List.Perm ds ds2) :
    kraftSum D ds = kraftSum D ds2 := by
  unfold kraftSum
  exact (h.map _).sum_eq

theorem kraftSum_zero_depths (D : Nat) (ds : List Nat) (h : ∀ d ∈ ds, d = 0) :
    kraftSum D ds = ds.length * 2 ^ D := by
  induction ds with
  | nil => simp [kraftSum]
  | cons d t ih =>
    have hd : d = 0 := h d (List.mem_cons_self _ _)
    rw [kraftSum_cons, ih (fun x hx => h x (List.mem_cons_of_mem _ hx)), hd]
    simp only [Nat.sub_zero, List.length_cons]
    ring

theorem exists_max_depth (ds : List Nat) (h : ds ≠ []) : ∃ m ∈ ds, ∀ d ∈ ds, d ≤ m := by
  induction ds with
  | nil => exact (h rfl).elim
  | cons d t ih =>
    by_cases ht : t = []
    · subst ht
      exact ⟨d, List.mem_cons_self _ _, fun x hx => by simp at hx; omega⟩
    · obtain ⟨m, hm, hmax⟩ := ih ht
      by_cases hdm : d ≤ m
      · refine ⟨m, List.mem_cons_of_mem _ hm, fun x hx => ?_⟩
        rcases List.mem_cons.mp hx with h1 | h1
        · omega
        · exact hmax x h1
      · refine ⟨d, List.mem_cons_self _ _, fun x hx => ?_⟩
        rcases List.mem_cons.mp hx with h1 | h1
        · omega
        · have := hmax x h1; omega

theorem swap_cost (a w d m : Nat) (h1 : a ≤ w) (h2 : d ≤ m) :
    a * m + w * d ≤ a * d + w * m := by
  obtain ⟨x, rfl⟩ := Nat.exists_eq_add_of_le h1
  obtain ⟨y, rfl⟩ := Nat.exists_eq_add_of_le h2
  nlinarith [Nat.zero_le (x * y)]

theorem perm_of_mem {α : Type} (x : α) (L : List α) (h : x ∈ L) :
    ∃ L1, List.Perm L (x :: L1) := by
  obtain ⟨s, t, rfl⟩ := List.append_of_mem h
  exact ⟨s ++ t, List.perm_middle⟩

/-- A smallest weight can be given the largest depth without raising the cost. -/
theorem swap_min (L : List (Nat × Nat)) (a m : Nat) (ha : a ∈ L.map Prod.fst)
    (hmin : ∀ p ∈ L, a ≤ p.1) (hmax : ∀ p ∈ L, p.2 ≤ m) (hm : m ∈ L.map Prod.snd) :
    ∃ R : List (Nat × Nat), List.Perm (a :: R.map Prod.fst) (L.map Prod.fst) ∧
      List.Perm (m :: R.map Prod.snd) (L.map Prod.snd) ∧ a * m + pathCost R ≤ pathCost L := by
  obtain ⟨⟨a2, d⟩, hp, ha2⟩ := List.mem_map.mp ha
  simp only at ha2
  subst ha2
  obtain ⟨L1, hL⟩ := perm_of_mem _ L hp
  by_cases hdm : d = m
  · subst hdm
    refine ⟨L1, by simpa using (hL.map Prod.fst).symm, by simpa using (hL.map Prod.snd).symm, ?_⟩
    rw [pathCost_perm hL, pathCost_cons]
  · obtain ⟨⟨w, m2⟩, hq, hm2⟩ := List.mem_map.mp hm
    simp only at hm2
    subst hm2
    have hq1 : (w, m2) ∈ L1 := by
      rcases List.mem_cons.mp (hL.mem_iff.mp hq) with h | h
      · injection h with _ h2
        exact (hdm h2.symm).elim
      · exact h
    obtain ⟨L2, hL1⟩ := perm_of_mem _ L1 hq1
    have hL2 : List.Perm L ((a2, d) :: (w, m2) :: L2) := hL.trans (hL1.cons _)
    refine ⟨(w, d) :: L2, ?_, ?_, ?_⟩
    · simpa using (hL2.map Prod.fst).symm
    · refine List.Perm.trans ?_ (hL2.map Prod.snd).symm
      simp only [List.map_cons]
      exact List.Perm.swap _ _ _
    · rw [pathCost_perm hL2, pathCost_cons, pathCost_cons, pathCost_cons]
      simp only
      have := swap_cost a2 w d m2 (hmin _ hq) (hmax _ hp)
      omega

/-- A depth that occurs once and exceeds all others can be lowered by one: the
Kraft inequality is kept (parity of the scaled sum). -/
theorem kraft_shorten (D m : Nat) (ds : List Nat) (hm1 : 1 ≤ m) (hmD : m ≤ D)
    (hlt : ∀ d ∈ ds, d < m) (hk : 2 ^ (D - m) + kraftSum D ds ≤ 2 ^ D) :
    2 ^ (D - (m - 1)) + kraftSum D ds ≤ 2 ^ D := by
  have he : D - (m - 1) = (D - m) + 1 := by omega
  have hdvd1 : 2 ^ (D - m + 1) ∣ kraftSum D ds := by
    unfold kraftSum
    apply List.dvd_sum
    intro x hx
    obtain ⟨d, hd, rfl⟩ := List.mem_map.mp hx
    exact Nat.pow_dvd_pow 2 (by have := hlt d hd; omega)
  have hdvd2 : 2 ^ (D - m + 1) ∣ 2 ^ D := Nat.pow_dvd_pow 2 (by omega)
  obtain ⟨k1, hk1⟩ := hdvd1
  obtain ⟨k2, hk2⟩ := hdvd2
  have hq : 0 < 2 ^ (D - m) := pow_pos (by norm_num) _
  rw [he, pow_succ]
  rw [pow_succ] at hk1 hk2
  generalize 2 ^ (D - m) = q at *
  generalize kraftSum D ds = S at *
  generalize 2 ^ D = P at *
  subst hk1 hk2
  have h1 : q * (1 + 2 * k1) ≤ q * (2 * k2) := by nlinarith
  have h2 : 1 + 2 * k1 ≤ 2 * k2 := Nat.le_of_mul_le_mul_left h1 hq
  have h3 : k1 + 1 ≤ k2 := by omega
  nlinarith [Nat.mul_le_mul_left (q * 2) h3]

theorem kraft_depth_pos (D : Nat) (ds : List Nat) (m : Nat) (hlen : 2 ≤ ds.length)
    (hmax : ∀ d ∈ ds, d ≤ m) (hK : Kraft D ds) : 1 ≤ m := by
  by_contra hm
  have hm0 : m = 0 := by omega
  have hz : ∀ d ∈ ds, d = 0 := fun d hd => by have := hmax d hd; omega
  have hs := kraftSum_zero_depths D ds hz
  have hk := hK.2
  rw [hs] at hk
  have hp : 0 < 2 ^ D := pow_pos (by norm_num) _
  nlinarith

/-- Exchange step of the optimality argument: any depth assignment satisfying
the Kraft inequality, for weights whose two smallest are `a` and `b`, can be
turned into one for the weights with `a` and `b` replaced by `a + b`, at a
cost lower by at least `a + b`. -/
theorem merge_two_smallest (D a b : Nat) (W2 : List Nat) (hab : a ≤ b)
    (hb : ∀ w ∈ W2, b ≤ w) : ∀ (k : Nat) (L : List (Nat × Nat)),
    (L.map Prod.snd).sum = k → List.Perm (L.map Prod.fst) (a :: b :: W2) →
    Kraft D (L.map Prod.snd) →
    ∃ L2 : List (Nat × Nat), List.Perm (L2.map Prod.fst) ((a + b) :: W2) ∧
      Kraft D (L2.map Prod.snd) ∧ pathCost L2 + (a + b) ≤ pathCost L := by
  intro k
  induction k using Nat.strong_induction_on with
  | _ k ih =>
    intro L hk hW hK
    have hlen : 2 ≤ (L.map Prod.snd).length := by
      have := hW.length_eq
      simp only [List.length_map, List.length_cons] at this ⊢
      omega
    have hne : L.map Prod.snd ≠ [] := by
      intro h; rw [h] at hlen; simp at hlen
    obtain ⟨m, hm, hmax⟩ := exists_max_depth _ hne
    have hm1 : 1 ≤ m := kraft_depth_pos D _ m hlen hmax hK
    have hmD : m ≤ D := hK.1 m hm
    have hmaxL : ∀ p ∈ L, p.2 ≤ m := fun p hp => hmax _ (List.mem_map_of_mem _ hp)
    have hminL : ∀ p ∈ L, a ≤ p.1 := by
      intro p hp
      have : p.1 ∈ a :: b :: W2 := hW.mem_iff.mp (List.mem_map_of_mem _ hp)
      rcases List.mem_cons.mp this with h | h
      · omega
      · rcases List.mem_cons.mp h with h | h
        · omega
        · have := hb _ h; omega
    by_cases hcnt : 2 ≤ (L.map Prod.snd).count m
    · -- two items at the largest depth: bring `a` and `b` there and merge them
      have haL : a ∈ L.map Prod.fst := hW.mem_iff.mpr (List.mem_cons_self _ _)
      obtain ⟨R, hR1, hR2, hR3⟩ := swap_min L a m haL hminL hmaxL hm
      have hRW : List.Perm (R.map Prod.fst) (b :: W2) := (hR1.trans hW).cons_inv
      have hcntR : 1 ≤ (R.map Prod.snd).count m := by
        have := hR2.count_eq m
        rw [List.count_cons_self] at this
        omega
      have hmR : m ∈ R.map Prod.snd := List.count_pos_iff.mp (by omega)
      have hmaxR : ∀ p ∈ R, p.2 ≤ m := fun p hp =>
        hmax _ (hR2.mem_iff.mp (List.mem_cons_of_mem _ (List.mem_map_of_mem _ hp)))
      have hminR : ∀ p ∈ R, b ≤ p.1 := by
        intro p hp
        have : p.1 ∈ b :: W2 := hRW.mem_iff.mp (List.mem_map_of_mem _ hp)
        rcases List.mem_cons.mp this with h | h
        · omega
        · exact hb _ h
      have hbR : b ∈ R.map Prod.fst := hRW.mem_iff.mpr (List.mem_cons_self _ _)
      obtain ⟨R2, hS1, hS2, hS3⟩ := swap_min R b m hbR hminR hmaxR hmR
      have hR2W : List.Perm (R2.map Prod.fst) W2 := (hS1.trans hRW).cons_inv
      have hds : List.Perm (m :: m :: R2.map Prod.snd) (L.map Prod.snd) :=
        (hS2.cons m).trans hR2
      refine ⟨(a + b, m - 1) :: R2, ?_, ⟨?_, ?_⟩, ?_⟩
      · simpa using hR2W
      · intro d hd
        simp only [List.map_cons, List.mem_cons] at hd
        rcases hd with h | h
        · omega
        · exact hK.1 d (hds.mem_iff.mp (List.mem_cons_of_mem _ (List.mem_cons_of_mem _ h)))
      · have h1 := kraftSum_perm D hds
        rw [kraftSum_cons, kraftSum_cons] at h1
        simp only [List.map_cons]
        rw [kraftSum_cons]
        have he : D - (m - 1) = (D - m) + 1 := by omega
        rw [he, pow_succ]
        have := hK.2
        omega
      · rw [pathCost_cons]
        simp only
        have hmul : (a + b) * (m - 1) + (a + b) = a * m + b * m := by
          obtain ⟨j, rfl⟩ : ∃ j, m = j + 1 := ⟨m - 1, by omega⟩
          simp only [Nat.add_sub_cancel]
          ring
        omega
    · -- a single item at the largest depth: it can be raised by one level
      have hcnt1 : (L.map Prod.snd).count m = 1 := by
        have := List.count_pos_iff.mpr hm
        omega
      obtain ⟨⟨w, m2⟩, hq, hm2⟩ := List.mem_map.mp hm
      simp only at hm2
      subst hm2
      obtain ⟨L1, hL⟩ := perm_of_mem _ L hq
      have hds : List.Perm (L.map Prod.snd) (m2 :: L1.map Prod.snd) := by
        simpa using hL.map Prod.snd
      have hcnt0 : (L1.map Prod.snd).count m2 = 0 := by
        have := hds.count_eq m2
        rw [List.count_cons_self] at this
        omega
      have hlt : ∀ d ∈ L1.map Prod.snd, d < m2 := by
        intro d hd
        have h1 : d ≤ m2 := hmax d (hds.mem_iff.mpr (List.mem_cons_of_mem _ hd))
        have h2 : d ≠ m2 := by
          intro h; subst h
          have := List.count_pos_iff.mpr hd
          omega
        omega
      have hsum : (L.map Prod.snd).sum = m2 + (L1.map Prod.snd).sum := by
        rw [hds.sum_eq]; simp
      have hKs : kraftSum D (L.map Prod.snd) = 2 ^ (D - m2) + kraftSum D (L1.map Prod.snd) := by
        rw [kraftSum_perm D hds, kraftSum_cons]
      have hK2 : Kraft D (((w, m2 - 1) :: L1).map Prod.snd) := by
        constructor
        · intro d hd
          simp only [List.map_cons, List.mem_cons] at hd
          rcases hd with h | h
          · omega
          · have := hlt d h; omega
        · simp only [List.map_cons]
          rw [kraftSum_cons]
          apply kraft_shorten D m2 _ hm1 hmD hlt
          rw [← hKs]
          exact hK.2
      have hW2 : List.Perm (((w, m2 - 1) :: L1).map Prod.fst) (a :: b :: W2) := by
        refine List.Perm.trans ?_ hW
        simpa using (hL.map Prod.fst).symm
      obtain ⟨L2, r1, r2, r3⟩ := ih (k - 1) (by omega) ((w, m2 - 1) :: L1)
        (by simp only [List.map_cons, List.sum_cons]; omega) hW2 hK2
      refine ⟨L2, r1, r2, ?_⟩
      rw [pathCost_cons] at r3
      rw [pathCost_perm hL, pathCost_cons]
      simp only at r3 ⊢
      have : w * (m2 - 1) ≤ w * m2 := Nat.mul_le_mul_left _ (by omega)
      omega

/-! ## Weighted path length of trees -/

theorem depthList_fst (t : HuffmanNode) : ∀ d : Nat,
    (depthList t d).map Prod.fst = (leaves t).map Prod.snd := by
  induction t with
  | null => intro d; rfl
  | mk c f l r ihl ihr =>
    intro d
    unfold depthList leaves
    split
    · rfl
    · rw [List.map_append, List.map_append, ihl, ihr]

theorem depthList_kraft (t : HuffmanNode) : ∀ d D : Nat, d + height t ≤ D →
    (∀ x ∈ (depthList t d).map Prod.snd, x ≤ D) ∧
    kraftSum D ((depthList t d).map Prod.snd) ≤ 2 ^ (D - d) := by
  induction t with
  | null => intro d D _; simp [depthList, kraftSum]
  | mk c f l r ihl ihr =>
    intro d D h
    unfold height at h
    unfold depthList
    split
    · simp only [List.map_cons, List.map_nil, List.mem_singleton, forall_eq, kraftSum_cons]
      exact ⟨by omega, by simp [kraftSum]⟩
    · obtain ⟨l1, l2⟩ := ihl (d + 1) D (by omega)
      obtain ⟨r1, r2⟩ := ihr (d + 1) D (by omega)
      constructor
      · intro x hx
        rw [List.map_append, List.mem_append] at hx
        rcases hx with hx | hx
        · exact l1 x hx
        · exact r1 x hx
      · have hs : kraftSum D ((depthList l (d + 1) ++ depthList r (d + 1)).map Prod.snd)
            = kraftSum D ((depthList l (d + 1)).map Prod.snd)
              + kraftSum D ((depthList r (d + 1)).map Prod.snd) := by
          simp [kraftSum]
        rw [hs]
        have he : D - d = (D - (d + 1)) + 1 := by omega
        rw [he, pow_succ]
        omega

theorem pathCost_append (L1 L2 : List (Nat × Nat)) :
    pathCost (L1 ++ L2) = pathCost L1 + pathCost L2 := by
  simp [pathCost]

theorem pathCost_depthList_succ (t : HuffmanNode) : ∀ d : Nat,
    pathCost (depthList t (d + 1)) = pathCost (depthList t d) + weight t := by
  induction t with
  | null => intro d; simp [depthList, pathCost, weight, leaves]
  | mk c f l r ihl ihr =>
    intro d
    unfold depthList weight leaves
    split
    · simp [pathCost]; ring
    · rw [pathCost_append, pathCost_append, ihl (d + 1), ihr (d + 1), List.map_append,
        List.sum_append]
      unfold weight
      omega

theorem weightedPathLength_new (c : Byte) (f : Nat) :
    weightedPathLength (HuffmanNode.new c f) = 0 := by
  simp [weightedPathLength, HuffmanNode.new, depthList, HuffmanNode.isNull, pathCost]

theorem weight_new (c : Byte) (f : Nat) : weight (HuffmanNode.new c f) = f := by
  simp [weight, leaves_new]

theorem weight_node (c : Byte) (f : Nat) (l r : HuffmanNode) (hl : l.isNull = false) :
    weight (HuffmanNode.mk c f l r) = weight l + weight r := by
  simp [weight, leaves_node c f l r hl]

theorem weightedPathLength_node (c : Byte) (f : Nat) (l r : HuffmanNode)
    (hl : l.isNull = false) :
    weightedPathLength (HuffmanNode.mk c f l r)
      = weightedPathLength l + weightedPathLength r + weight l + weight r := by
  unfold weightedPathLength
  rw [depthList]
  simp only [hl, Bool.false_and, Bool.false_eq_true, if_false]
  rw [pathCost_append, pathCost_depthList_succ l 0, pathCost_depthList_succ r 0]
  omega

/-- The leaves of any binary tree satisfy the Kraft inequality, and their
weights are the frequencies at the leaves. -/
theorem depthList_spec (u : HuffmanNode) :
    (depthList u 0).map Prod.fst = (leaves u).map Prod.snd ∧
    Kraft (height u) ((depthList u 0).map Prod.snd) := by
  refine ⟨depthList_fst u 0, ?_⟩
  obtain ⟨h1, h2⟩ := depthList_kraft u 0 (height u) (by omega)
  exact ⟨h1, by simpa using h2⟩

/-! ## Optimality of the built tree -/

theorem mergeLoop_optimal (fuel : Nat) : ∀ pq : List HuffmanNode, pq.length ≤ fuel + 1 →
    pq ≠ [] → HeapOrdered pq pq.length → (∀ t ∈ pq, Good t ∧ t.freq = weight t) →
    ∀ (D : Nat) (L : List (Nat × Nat)), List.Perm (L.map Prod.fst) (pq.map HuffmanNode.freq) →
    Kraft D (L.map Prod.snd) →
    ∃ T, mergeLoop fuel pq = [T] ∧
      weightedPathLength T ≤ (pq.map weightedPathLength).sum + pathCost L := by
  induction fuel with
  | zero =>
    intro pq hlen hne _ _ D L _ _
    match pq, hlen, hne with
    | [t], _, _ => exact ⟨t, rfl, by simp⟩
  | succ n ih =>
    intro pq hlen hne hheap hinv D L hW hK
    unfold mergeLoop
    split
    · next hgt =>
      simp only
      have hp1 := pqPop_perm pq hne
      have hl1 := pqPop_length pq hne
      have hne1 : pqPop pq ≠ [] := by intro h; simp [h] at hl1; omega
      have hp2 := pqPop_perm (pqPop pq) hne1
      have hl2 := pqPop_length (pqPop pq) hne1
      have hheap1 := pqPop_heap pq hheap
      have hheap2 := pqPop_heap (pqPop pq) hheap1
      have hmin1 := pqTop_min pq hheap
      have hmin2 := pqTop_min (pqPop pq) hheap1
      have hmem1 : ∀ x ∈ pqPop pq, x ∈ pq := fun x hx =>
        hp1.mem_iff.mpr (List.mem_cons_of_mem _ hx)
      have hmem2 : ∀ x ∈ pqPop (pqPop pq), x ∈ pqPop pq := fun x hx =>
        hp2.mem_iff.mpr (List.mem_cons_of_mem _ hx)
      have hleft : pqTop pq ∈ pq := hp1.mem_iff.mpr (List.mem_cons_self _ _)
      have hright : pqTop (pqPop pq) ∈ pqPop pq := hp2.mem_iff.mpr (List.mem_cons_self _ _)
      generalize hL : pqTop pq = left at *
      generalize hR : pqTop (pqPop pq) = right at *
      generalize hQ : pqPop (pqPop pq) = pq2 at *
      obtain ⟨hgl, hwl⟩ := hinv left hleft
      obtain ⟨hgr, hwr⟩ := hinv right (hmem1 _ hright)
      have hpq : List.Perm pq (left :: right :: pq2) := hp1.trans (hp2.cons _)
      have hab : left.freq ≤ right.freq := hmin1 right (hmem1 _ hright)
      have hb : ∀ w ∈ pq2.map HuffmanNode.freq, right.freq ≤ w := by
        intro w hw
        obtain ⟨x, hx, rfl⟩ := List.mem_map.mp hw
        exact hmin2 x (hmem2 x hx)
      have hW2 : List.Perm (L.map Prod.fst)
          (left.freq :: right.freq :: pq2.map HuffmanNode.freq) := by
        refine hW.trans ?_
        simpa using hpq.map HuffmanNode.freq
      obtain ⟨L2, m1, m2, m3⟩ := merge_two_smallest D left.freq right.freq _ hab hb _ L rfl hW2 hK
      generalize hN : HuffmanNode.mk 0 (left.freq + right.freq) left right = node
      have hgn : Good node := by rw [← hN]; exact Good.node _ _ _ hgl hgr
      have hnf : node.freq = left.freq + right.freq := by rw [← hN]; rfl
      have hnw : node.freq = weight node := by
        rw [hnf, ← hN, weight_node _ _ _ _ hgl.ne_null, hwl, hwr]
      have hnwpl : weightedPathLength node
          = weightedPathLength left + weightedPathLength right + left.freq + right.freq := by
        rw [← hN, weightedPathLength_node _ _ _ _ hgl.ne_null, hwl, hwr]
      have hp3 := pqPush_perm pq2 node
      have hl3 := pqPush_length pq2 node
      have hinv3 : ∀ t ∈ pqPush pq2 node, Good t ∧ t.freq = weight t := by
        intro t ht
        rcases List.mem_cons.mp (hp3.mem_iff.mp ht) with h | h
        · rw [h]; exact ⟨hgn, hnw⟩
        · exact hinv t (hmem1 t (hmem2 t h))
      have hW3 : List.Perm (L2.map Prod.fst) ((pqPush pq2 node).map HuffmanNode.freq) := by
        refine m1.trans ?_
        have := (hp3.map HuffmanNode.freq).symm
        simpa [hnf] using this
      obtain ⟨T, hT1, hT2⟩ := ih (pqPush pq2 node) (by omega)
        (by intro h; simp [h] at hl3) (pqPush_heap pq2 node hheap2) hinv3 D L2 hW3 m2
      refine ⟨T, hT1, ?_⟩
      have hs3 : ((pqPush pq2 node).map weightedPathLength).sum
          = weightedPathLength node + (pq2.map weightedPathLength).sum := by
        rw [(hp3.map weightedPathLength).sum_eq]; simp
      have hs : (pq.map weightedPathLength).sum
          = weightedPathLength left + (weightedPathLength right
            + (pq2.map weightedPathLength).sum) := by
        rw [(hpq.map weightedPathLength).sum_eq]; simp
      omega
    · next hle =>
      match pq, hne, hle with
      | [t], _, _ => exact ⟨t, rfl, by simp⟩
      | _ :: _ :: _, _, h => exact absurd (by simp) h

theorem pushLeaves_inv (freqMap : FreqMap) :
    (∀ t ∈ pushLeaves freqMap, Good t ∧ t.freq = weight t) ∧
    List.Perm ((pushLeaves freqMap).map HuffmanNode.freq) (freqMap.map Prod.snd) ∧
    ((pushLeaves freqMap).map weightedPathLength).sum = 0 := by
  have hp := pushLeaves_perm freqMap
  refine ⟨?_, ?_, ?_⟩
  · intro t ht
    obtain ⟨e, _, rfl⟩ := List.mem_map.mp (hp.mem_iff.mp ht)
    exact ⟨Good.leaf _ _, by rw [weight_new]; rfl⟩
  · refine (hp.map HuffmanNode.freq).trans ?_
    rw [List.map_map]
    exact List.Perm.of_eq (List.map_congr_left (fun e _ => rfl))
  · rw [(hp.map weightedPathLength).sum_eq, List.map_map]
    apply List.sum_eq_zero
    intro x hx
    obtain ⟨e, _, rfl⟩ := List.mem_map.mp hx
    exact weightedPathLength_new _ _

theorem buildTree_optimal (freqMap : FreqMap) (u : HuffmanNode)
    (hu : List.Perm (leaves u) freqMap) :
    weightedPathLength (buildTree freqMap) ≤ weightedPathLength u := by
  by_cases hne : freqMap = []
  · subst hne
    have : buildTree [] = HuffmanNode.null := rfl
    rw [this]
    simp [weightedPathLength, depthList, pathCost]
  · obtain ⟨hinv, hfreq, hzero⟩ := pushLeaves_inv freqMap
    obtain ⟨hfst, hkraft⟩ := depthList_spec u
    have hpne : pushLeaves freqMap ≠ [] := by
      intro h
      have := pushLeaves_length freqMap
      rw [h] at this
      exact hne (List.eq_nil_of_length_eq_zero this.symm)
    have hW : List.Perm ((depthList u 0).map Prod.fst)
        ((pushLeaves freqMap).map HuffmanNode.freq) := by
      rw [hfst]
      exact (hu.map Prod.snd).trans hfreq.symm
    obtain ⟨T, hT1, hT2⟩ := mergeLoop_optimal (pushLeaves freqMap).length (pushLeaves freqMap)
      (by omega) hpne (pushLeaves_heap freqMap) hinv (height u) (depthList u 0) hW hkraft
    have hb : buildTree freqMap = T := by
      simp [buildTree, buildQueue, hT1, pqTop, at_]
    rw [hb]
    rw [hzero] at hT2
    have : pathCost (depthList u 0) = weightedPathLength u := rfl
    omega

/-- C20: for every frequency table, the tree built by the merge loop has the
table's entries at its leaves and its weighted path length (the sum over the
leaves of frequency times depth) is at most that of any binary tree `u` whose
leaves are exactly the table's entries. -/
theorem buildTree_minimal_weightedPathLength (freqMap : FreqMap) (u : HuffmanNode)
    (hu : List.Perm (leaves u) freqMap) :
    List.Perm (leaves (buildTree freqMap)) freqMap ∧
    weightedPathLength (buildTree freqMap) ≤ weightedPathLength u := by
  refine ⟨?_, buildTree_optimal freqMap u hu⟩
  by_cases hne : freqMap = []
  · subst hne
    exact List.Perm.refl _
  · exact (buildTree_spec freqMap hne).2.1

/-- C20 (witness): for the table `{A: 3, B: 1, C: 1}` the built tree has weighted
path length 7, while the tree `((A B) C)` over the same leaves has 9. -/
theorem buildTree_minimal_weightedPathLength_witness :
    weightedPathLength (buildTree [(65, 3), (66, 1), (67, 1)]) = 7 ∧
    weightedPathLength
      (HuffmanNode.mk 0 5 (HuffmanNode.mk 0 4 (HuffmanNode.new 65 3) (HuffmanNode.new 66 1))
        (HuffmanNode.new 67 1)) = 9 ∧
    weightedPathLength (buildTree [(65, 3), (66, 1), (67, 1)]) ≤
      weightedPathLength
        (HuffmanNode.mk 0 5 (HuffmanNode.mk 0 4 (HuffmanNode.new 65 3) (HuffmanNode.new 66 1))
          (HuffmanNode.new 67 1)) :=
  ⟨by decide, by decide,
    (buildTree_minimal_weightedPathLength [(65, 3), (66, 1), (67, 1)]
      (HuffmanNode.mk 0 5 (HuffmanNode.mk 0 4 (HuffmanNode.new 65 3) (HuffmanNode.new 66 1))
        (HuffmanNode.new 67 1)) (by decide)).2⟩

section OrdinaryInput

set_option maxRecDepth 100000

/-- C13 (the code at the failing input): the file "aaabcdefffghij" holds ten
distinct byte values and no zero byte.  `compress` pushes the entries of its
table in the order `tieTable`; when `decompress` pushes the same entries in the
reverse order, as happens when its own map iterates them differently, the
payload is decoded to "aaaghijfffbcde" under either flag, not to the input. -/
theorem roundTrip_ordinary_breaks_across_push_orders :
    (0 : Byte) ∉ tieInput ∧ (97 : Byte) ∈ tieInput ∧ (98 : Byte) ∈ tieInput ∧
    (compress tieInput false).freqMap = tieTable ∧
    (compress tieInput true).freqMap = tieTable ∧
    List.Perm tieTable.reverse tieTable ∧
    decompress false tieTable.reverse (compress tieInput false).originalBits
      (compress tieInput false).encodedBits (compress tieInput false).payload
      = some [97, 97, 97, 103, 104, 105, 106, 102, 102, 102, 98, 99, 100, 101] ∧
    decompress true tieTable.reverse (compress tieInput true).originalBits
      (compress tieInput true).encodedBits (compress tieInput true).payload
      = some [97, 97, 97, 103, 104, 105, 106, 102, 102, 102, 98, 99, 100, 101] ∧
    decompress false tieTable.reverse (compress tieInput false).originalBits
      (compress tieInput false).encodedBits (compress tieInput false).payload
      ≠ some tieInput ∧
    decompress true tieTable.reverse (compress tieInput true).originalBits
      (compress tieInput true).encodedBits (compress tieInput true).payload
      ≠ some tieInput := by
  refine ⟨?_, ?_, ?_, ?_, ?_, List.reverse_perm _, ?_, ?_, ?_, ?_⟩ <;> decide

end OrdinaryInput

end HuffmanHamming
